import Mathlib

/-!
Verification development for the fix_utilities repository (three Python
scripts operating on FIX dictionary XML documents).

Modelling conventions (shallow embedding):
* XML attribute values are `String`s, exactly as `xml.etree.ElementTree`
  exposes them (tag numbers are strings such as "35", "100").
* A `<fields>` section child is either a `<field>` element (number, name,
  type, `<value>` children) or a `<component>` element (name, type) -- the
  Definition Builder emits component declarations as children of the fields
  section, so the model must allow both.
* Message/component members are modelled XML-faithfully as elements with a
  tag string ("field", "component", "group", ...), a name, a required flag
  and a list of child members (nonempty only for groups).
* Sections that a script accesses through `root.find(...)` and that may be
  absent (`components`, `header`, `trailer`) are `Option`s; `messages` and
  `fields` are assumed present (the scripts crash on documents lacking
  them, and every document of the data model has them).
* Code paths that raise in Python (calling a method on a `None` find
  result) are modelled by returning `none` from an `Option`-valued
  function.
* Printed diagnostics are modelled as an explicit list of structured
  diagnostic values returned next to the result document.
-/

/-- A `<value enum=... description=...>` child of a field definition. -/
structure EnumValue where
  enum : String
  description : String
deriving DecidableEq

/-- A `<field number=... name=... type=...>` element of the fields section,
with its list of `<value>` children. -/
structure FieldDef where
  number : String
  name : String
  type : String
  values : List EnumValue
deriving DecidableEq

/-- A child of the `<fields>` section: either a `<field>` element or a
`<component name=... type=...>` element (the Definition Builder writes
component declarations there, `src/00_csv_to_fixxml.py` lines 116-120). -/
inductive FieldsEntry where
  | field (f : FieldDef)
  | comp (name ctype : String)
deriving DecidableEq

/-- A member element inside a message, component, group, header or trailer:
an XML element with a tag ("field", "component", "group", ...), a `name`
attribute, a `required` attribute and child members (groups nest). -/
inductive MemberE where
  | mk (tag name required : String) (children : List MemberE)

/-- The element tag of a member. -/
def MemberE.tag : MemberE → String
  | .mk t _ _ _ => t

/-- The `name` attribute of a member. -/
def MemberE.name : MemberE → String
  | .mk _ n _ _ => n

/-- The `required` attribute of a member. -/
def MemberE.req : MemberE → String
  | .mk _ _ r _ => r

/-- The child members of a member (nonempty only for groups). -/
def MemberE.children : MemberE → List MemberE
  | .mk _ _ _ c => c

/-- A `<message name=... msgtype=... msgcat=...>` element. -/
structure FixMessage where
  name : String
  msgtype : String
  msgcat : String
  members : List MemberE

/-- A `<component name=...>` element of the `<components>` section. -/
structure FixComponent where
  name : String
  members : List MemberE

/-- A FIX dictionary document: the tree the three scripts read and write.
`components`, `header` and `trailer` may be absent (`root.find` returns
`None` for them); the Definition Builder emits documents without them. -/
structure FixDocument where
  messages : List FixMessage
  fields : List FieldsEntry
  components : Option (List FixComponent)
  header : Option (List MemberE)
  trailer : Option (List MemberE)

/-! ## String primitives

The Python code uses `str.strip()`, `str.upper()`, `str.replace(" ", "")`
and `str.split(sep)` with one-character separators.  We model them
structurally over the character list of a `String` (ASCII semantics,
which is what FIX dictionary content uses); this keeps every definition
kernel-reducible on concrete inputs. -/

/-- Whitespace recognised by `str.strip()` (space, tab, newline, carriage
return). -/
def isSpaceChar (c : Char) : Bool := c = ' ' ∨ c = '\t' ∨ c = '\n' ∨ c = '\r'

/-- `str.strip()`. -/
def trimString (s : String) : String :=
  ⟨((s.data.dropWhile isSpaceChar).reverse.dropWhile isSpaceChar).reverse⟩

/-- `str.upper()` (ASCII). -/
def upperString (s : String) : String := ⟨s.data.map Char.toUpper⟩

/-- `str.replace(" ", "")`. -/
def removeSpaces (s : String) : String := ⟨s.data.filter (fun c => c ≠ ' ')⟩

/-- `str.split(sep)` for a one-character separator. -/
def splitOnChar (sep : Char) (s : String) : List String :=
  (s.data.splitOn sep).map (fun l => ⟨l⟩)

/-- Rejoin fragments with a one-character separator (used to model
`str.split(sep, 1)` as a split followed by a rejoin of the tail). -/
def joinChar (sep : Char) (ls : List String) : String :=
  ⟨List.intercalate [sep] (ls.map String.data)⟩

/-! ## Definition Builder (`src/00_csv_to_fixxml.py`) -/

/-- One CSV row (`csv.DictReader` row) with the columns the script reads. -/
structure CsvRow where
  msg_type : String
  msg_name : String
  tag_number : String
  element_name : String
  element_type : String
  required : String
  data_type : String
  enum_values : String

/-- A diagnostic recorded by the builder (the Python code appends
human-readable strings to `errors`; we record the structured content). -/
inductive BuildErr where
  | invalidEnum (tag part : String)
  | conflictField (tag name dtype : String)
deriving DecidableEq

/-- `parse_enum_values` (lines 11-27): split on `|`, then on the first `:`;
a fragment without `:` is recorded as an error and skipped.  Returns the
parsed pairs and the recorded errors (Python threads a shared `errors`
list; we return the new entries). -/
def parse_enum_values (enum_str : String) (tag_number : String) :
    List EnumValue × List BuildErr :=
  if enum_str = "" then ([], [])
  else
    (splitOnChar '|' enum_str).foldl
      (fun acc part =>
        match splitOnChar ':' part with
        | [] => acc
        | [_] => (acc.1, acc.2 ++ [.invalidEnum tag_number part])
        | c :: rest =>
            (acc.1 ++ [⟨trimString c, trimString (joinChar ':' rest)⟩], acc.2))
      ([], [])

/-- The canonical definition stored in `fields_map` (lines 62-68). -/
structure FieldInfo where
  element_type : String
  tag_number : String
  element_name : String
  data_type : String
  enums : List EnumValue

/-- The record appended to a message's element list (lines 70-74). -/
structure RowElem where
  element_type : String
  element_name : String
  required : String

/-- The accumulating state of the CSV loop: `messages` is the insertion
ordered `defaultdict(list)` keyed by `(msg_type, msg_name)`, `fields_map`
the insertion-ordered dict keyed by element name. -/
structure BuildState where
  messages : List ((String × String) × List RowElem)
  fields_map : List (String × FieldInfo)
  errors : List BuildErr
  duplicates : Finset String

/-- Append an element to a message's list in the ordered `defaultdict`
(lines 70-74): extend the entry if the key exists, else add a new key at
the end. -/
def addToMessage (ms : List ((String × String) × List RowElem))
    (k : String × String) (e : RowElem) :
    List ((String × String) × List RowElem) :=
  if ms.any (fun p => p.1 = k) then
    ms.map (fun p => if p.1 = k then (p.1, p.2 ++ [e]) else p)
  else ms ++ [(k, [e])]

/-- One iteration of the CSV reader loop (lines 41-74): trim/upcase the
row's columns, detect a conflicting repeat of an element name (`continue`
skips the message append), record benign duplicates, and register first
occurrences in `fields_map`. -/
def processRow (st : BuildState) (row : CsvRow) : BuildState :=
  let msg_type := trimString row.msg_type
  let msg_name := trimString row.msg_name
  let tag_number := trimString row.tag_number
  let element_name := trimString row.element_name
  let element_type := trimString row.element_type
  let required := upperString (trimString row.required)
  let data_type := upperString (trimString row.data_type)
  let enum_raw := upperString (removeSpaces row.enum_values)
  match st.fields_map.lookup element_name with
  | some existing =>
      if existing.element_name ≠ element_name ∨ existing.data_type ≠ data_type
          ∨ existing.tag_number ≠ tag_number then
        { st with errors := st.errors ++ [.conflictField tag_number element_name data_type] }
      else
        { st with
            duplicates := insert element_name st.duplicates
            messages := addToMessage st.messages (msg_type, msg_name)
              ⟨element_type, element_name, required⟩ }
  | none =>
      let pe := parse_enum_values enum_raw tag_number
      { st with
          fields_map := st.fields_map ++
            [(element_name, ⟨element_type, tag_number, element_name, data_type, pe.1⟩)]
          errors := st.errors ++ pe.2
          messages := addToMessage st.messages (msg_type, msg_name)
            ⟨element_type, element_name, required⟩ }

/-- Message assembly (lines 92-100): drop repeats of an element name inside
one message (first occurrence kept), emit each element with its raw
`element_type` as the XML tag. -/
def buildMembersGo (seen : Finset String) : List RowElem → List MemberE
  | [] => []
  | e :: rest =>
      if e.element_name ∈ seen then buildMembersGo seen rest
      else MemberE.mk e.element_type e.element_name e.required []
        :: buildMembersGo (insert e.element_name seen) rest

/-- Members of one built message (lines 92-100). -/
def buildMembers (es : List RowElem) : List MemberE := buildMembersGo ∅ es

/-- `csv_to_fix_xml` (lines 30-136) restricted to its pure core: fold the
rows, then assemble the document.  The output has `messages` and `fields`
sections only -- no `components`, `header` or `trailer` sections are ever
created.  A `fields_map` entry is written as a `<field>` child when its
kind is "field", as a `<component>` child of the fields section when its
kind is "component", and is dropped otherwise (lines 104-120).  Returns
the document together with the recorded errors. -/
def buildFieldsSection (fm : List (String × FieldInfo)) : List FieldsEntry :=
  fm.filterMap (fun p =>
    if p.2.element_type = "field" then
      some (FieldsEntry.field ⟨p.2.tag_number, p.2.element_name, p.2.data_type, p.2.enums⟩)
    else if p.2.element_type = "component" then
      some (FieldsEntry.comp p.2.element_name p.2.data_type)
    else none)

/-- The pure core of `csv_to_fix_xml` (lines 30-136): fold the rows, then
assemble the document from the accumulated state. -/
def csv_to_fix_xml (rows : List CsvRow) : FixDocument × List BuildErr :=
  let st := rows.foldl processRow ⟨[], [], [], ∅⟩
  ({ messages := st.messages.map
        (fun p => FixMessage.mk p.1.2 p.1.1 "app" (buildMembers p.2))
     fields := buildFieldsSection st.fields_map
     components := none, header := none, trailer := none }, st.errors)

/-! ## Dictionary Merger (`src/01_merge_fixxml_dictionaries.py`) -/

/-- A printed diagnostic of the merger: the duplicate-declaration warning
of lines 31-37, the name/type conflict warning of lines 48-55 and the
benign same-name-and-type duplicate notice of lines 56-58. -/
inductive Diag where
  | dupTagInCustom (tag : String) (count : Nat)
  | conflict (tag : String)
  | dupTag (tag : String)
deriving DecidableEq

/-- The `<field>` children of a fields section, in order
(`fields_el.findall("field")`): `<component>` children are skipped. -/
def fieldEntries (fs : List FieldsEntry) : List FieldDef :=
  fs.filterMap fun e =>
    match e with
    | .field f => some f
    | .comp _ _ => none

/-- The tag numbers of the `<field>` children, in order. -/
def numbersOf (fs : List FieldsEntry) : List String :=
  (fieldEntries fs).map (·.number)

/-- The `<field>` children carrying a given tag number, in order.  A
Python dict comprehension keyed by number keeps the last one, so
`default_field_map[num]` is `(fieldsWithNumber fs num).getLast?`. -/
def fieldsWithNumber (fs : List FieldsEntry) (num : String) : List FieldDef :=
  (fieldEntries fs).filter (·.number = num)

/-- First-occurrence deduplication with an accumulator of already seen
elements. -/
def firstOccurrencesAux (seen : List String) : List String → List String
  | [] => []
  | t :: rest =>
      if t ∈ seen then firstOccurrencesAux seen rest
      else t :: firstOccurrencesAux (t :: seen) rest

/-- First-occurrence deduplication, the iteration order of a
`defaultdict` keyed by tag (lines 25-29). -/
def firstOccurrences (l : List String) : List String := firstOccurrencesAux [] l

/-- The duplicate-tag check over the custom file (lines 24-37): group the
custom `<field>` children by tag (skipping falsy, i.e. empty, tags) and
warn once per tag declared more than once. -/
def dupTagDiags (customFs : List FieldsEntry) : List Diag :=
  let tags := (numbersOf customFs).filter (· ≠ "")
  (firstOccurrences tags).filterMap fun t =>
    if 2 ≤ tags.count t then some (.dupTagInCustom t (tags.count t)) else none

/-- The compare-with-default pass (lines 44-58): for each custom field
whose tag is in the base map, warn `conflict` on a name or type mismatch
and `dupTag` otherwise.  Purely diagnostic, mutates nothing. -/
def compareOne (baseFs : List FieldsEntry) (cf : FieldDef) : Option Diag :=
  match (fieldsWithNumber baseFs cf.number).getLast? with
  | none => none
  | some df =>
      if df.name ≠ cf.name ∨ df.type ≠ cf.type then some (.conflict cf.number)
      else some (.dupTag cf.number)

/-- The compare-with-default pass (lines 44-58) over all custom fields. -/
def comparisonDiags (baseFs customFs : List FieldsEntry) : List Diag :=
  (fieldEntries customFs).filterMap (compareOne baseFs)

/-- Replace the values of the last `<field>` child carrying `num` (the
element `default_field_map[num]` aliases), leaving everything else in
place. -/
def updateLastFieldValues :
    List FieldsEntry → String → (FieldDef → List EnumValue) → List FieldsEntry
  | [], _, _ => []
  | .field f :: rest, num, g =>
      if f.number = num ∧ fieldsWithNumber rest num = [] then
        .field { f with values := g f } :: rest
      else .field f :: updateLastFieldValues rest num g
  | .comp n t :: rest, num, g => .comp n t :: updateLastFieldValues rest num g

/-- One iteration of the field-merge loop (lines 60-69).  If the custom
field's tag is in the base map the custom `<value>` children whose enum
code is absent from the (current) base field are appended -- note this
happens whether or not the earlier pass flagged a name/type conflict for
the tag.  Otherwise the whole custom field element is appended to the
fields section.  The membership test uses the map built from the original
base fields (the map is never updated), so `origNums` is fixed. -/
def mergeOneField (origNums : List String) (fs : List FieldsEntry)
    (cf : FieldDef) : List FieldsEntry :=
  if cf.number ∈ origNums then
    updateLastFieldValues fs cf.number (fun df =>
      df.values ++ cf.values.filter (fun v => ¬ df.values.any (fun w => w.enum = v.enum)))
  else fs ++ [.field cf]

/-- The field-merge loop folded over the custom `<field>` children. -/
def mergeFieldsGo (origNums : List String) (fs : List FieldsEntry)
    (cfs : List FieldDef) : List FieldsEntry :=
  cfs.foldl (mergeOneField origNums) fs

/-- Field unification (lines 40-69): merge the custom fields into the base
fields section. -/
def merge_fields (baseFs customFs : List FieldsEntry) : List FieldsEntry :=
  mergeFieldsGo (numbersOf baseFs) baseFs (fieldEntries customFs)

/-- `default_root.find(".//field[@number='35']")` (line 86): the first
element with tag `field` and attribute `number='35'` in document order.
Member `<field>` elements inside messages, components, header or trailer
carry no `number` attribute, so the first match is the first `<field>`
child of the fields section numbered 35. -/
def findField35 (fs : List FieldsEntry) : Option FieldDef :=
  (fieldEntries fs).find? (·.number = "35")

/-- Replace the values of the first `<field>` child numbered 35 (the
element `msg_type_field` aliases), leaving everything else in place. -/
def updateFirstField35Values :
    List FieldsEntry → (FieldDef → List EnumValue) → List FieldsEntry
  | [], _ => []
  | .field f :: rest, g =>
      if f.number = "35" then .field { f with values := g f } :: rest
      else .field f :: updateFirstField35Values rest g
  | .comp n t :: rest, g => .comp n t :: updateFirstField35Values rest g

/-- The MsgType maintenance loop (lines 87-95) applied to the values of
the field numbered 35: for every custom message in order, append
`(msgtype, NAME)` unless a value with that enum code is already present.
Python re-checks `msg_type_field` before each append; threading the value
list through the fold is the same computation. -/
def addMsgTypeStep (vs : List EnumValue) (m : FixMessage) : List EnumValue :=
  if vs.any (fun v => v.enum = m.msgtype) then vs
  else vs ++ [⟨m.msgtype, upperString m.name⟩]

/-- The MsgType maintenance loop folded over all custom messages. -/
def addMsgTypeValues (f : FieldDef) (msgs : List FixMessage) : List EnumValue :=
  msgs.foldl addMsgTypeStep f.values

/-- `merge_section("messages", "name")` (lines 72-95): append every custom
message whose `name` is truthy and not among the base message names (the
key set is computed once, before any append), then run the MsgType
maintenance loop over ALL custom messages.  When the custom messages
section is nonempty and no field numbered 35 exists the Python code calls
`.find` on `None` and raises: modelled as `none`. -/
def merge_messages_section (fs : List FieldsEntry)
    (baseMsgs customMsgs : List FixMessage) :
    Option (List FieldsEntry × List FixMessage) :=
  match customMsgs with
  | [] =>
      some (fs, baseMsgs ++ customMsgs.filter
        (fun m => m.name ≠ "" ∧ m.name ∉ baseMsgs.map (·.name)))
  | _ :: _ =>
      match findField35 fs with
      | none => none
      | some _ =>
          some (updateFirstField35Values fs (fun f => addMsgTypeValues f customMsgs),
            baseMsgs ++ customMsgs.filter
              (fun m => m.name ≠ "" ∧ m.name ∉ baseMsgs.map (·.name)))

/-- `merge_section("components", "name")` (lines 72-82): nothing happens
when the custom document has no components section; when it has one and
the base does not, `d_sec.findall` is called on `None` and raises
(modelled as `none`); otherwise custom components with a truthy name not
among the base component names are appended. -/
def merge_components_section (baseComps customComps : Option (List FixComponent)) :
    Option (Option (List FixComponent)) :=
  match customComps with
  | none => some baseComps
  | some cs =>
      match baseComps with
      | none => none
      | some bs =>
          some (some (bs ++ cs.filter
            (fun c => c.name ≠ "" ∧ c.name ∉ bs.map (·.name))))

/-- `merge_fix_xml` (lines 10-106) restricted to its pure core: emit the
duplicate-tag and comparison diagnostics, merge the fields sections, merge
the messages (with MsgType maintenance) and the components, and return the
mutated base document together with the diagnostics.  Header and trailer
of the base are never touched.  `none` models the AttributeError raises
described at the sub-functions. -/
def merge_fix_xml (base custom : FixDocument) :
    Option (FixDocument × List Diag) :=
  match merge_messages_section (merge_fields base.fields custom.fields)
      base.messages custom.messages with
  | none => none
  | some (fields2, msgs2) =>
      match merge_components_section base.components custom.components with
      | none => none
      | some comps2 =>
          some ({ base with fields := fields2, messages := msgs2, components := comps2 },
            dupTagDiags custom.fields ++ comparisonDiags base.fields custom.fields)

/-! ## Reachability Pruner (`src/02_strip_fixxml_by_message.py`) -/

/-- Direct `<field>` children of a member list (`el.findall("field")`):
members nested inside groups are NOT found, `findall` only matches direct
children. -/
def directFieldNames (ms : List MemberE) : List String :=
  (ms.filter (fun m => m.tag = "field")).map (·.name)

/-- Direct `<component>` children of a member list
(`el.findall("component")`). -/
def directCompNames (ms : List MemberE) : List String :=
  (ms.filter (fun m => m.tag = "component")).map (·.name)

/-- `component_map` lookup (lines 55-60): the dict assignment loop keeps
the LAST component with a given name. -/
def lookupComp (cmap : List FixComponent) (n : String) : Option FixComponent :=
  (cmap.filter (·.name = n)).getLast?

/-- The set of names occurring in the components section. -/
def allCompNames (cmap : List FixComponent) : Finset String :=
  (cmap.map (·.name)).toFinset

theorem mem_allCompNames_of_lookup {cmap : List FixComponent} {n : String}
    {k : FixComponent} (h : lookupComp cmap n = some k) :
    n ∈ allCompNames cmap := by
  unfold lookupComp at h
  have hmem : k ∈ (cmap.filter (·.name = n)).getLast? := Option.mem_def.2 h
  obtain ⟨hne, hx⟩ := List.mem_getLast?_eq_getLast hmem
  have hk : k ∈ cmap.filter (·.name = n) := hx ▸ List.getLast_mem hne
  rw [List.mem_filter] at hk
  have : k.name = n := by simpa using hk.2
  subst this
  exact List.mem_toFinset.2 (List.mem_map_of_mem _ hk.1)

/-- The three mutable sets of the pruner: `visited_components`,
`used_field_names`, `used_components`. -/
structure CState where
  visited : Finset String
  usedFields : Finset String
  usedComps : Finset String
deriving DecidableEq

theorem card_sdiff_insert_lt {u v : Finset String} {n : String}
    (hn : n ∈ u) (hv : n ∉ v) :
    (u \ insert n v).card < (u \ v).card := by
  apply Finset.card_lt_card
  constructor
  · exact Finset.sdiff_subset_sdiff (Finset.Subset.refl u) (Finset.subset_insert n v)
  · intro hsub
    have hmem : n ∈ u \ v := Finset.mem_sdiff.2 ⟨hn, hv⟩
    have : n ∈ u \ insert n v := hsub hmem
    exact (Finset.mem_sdiff.1 this).2 (Finset.mem_insert_self n v)

/-- `collect_nested_components` (lines 42-52), processed over a list of
names.  A name not in the component map, or already visited, is skipped.
Otherwise the component is marked visited, its direct field names are
added to the used-field set, its direct component names to the
used-components set, and those subcomponents are traversed before the
remaining names.  (Python adds each subcomponent name to the write-only
`used_components` set immediately before recursing into it; adding the
whole batch before recursing computes the same final sets.)  Group members
are never examined.  The returned subset proof witnesses that the visited
set only grows, which drives the termination measure. -/
def collect_nested_components (cmap : List FixComponent) :
    (names : List String) → (st : CState) →
    { st' : CState // st.visited ⊆ st'.visited }
  | [], st => ⟨st, Finset.Subset.refl _⟩
  | n :: rest, st =>
    if hg : (lookupComp cmap n).isSome ∧ n ∉ st.visited then
      let k := (lookupComp cmap n).get hg.1
      let st1 : CState :=
        { visited := insert n st.visited
          usedFields := st.usedFields ∪ (directFieldNames k.members).toFinset
          usedComps := st.usedComps ∪ (directCompNames k.members).toFinset }
      let r1 := collect_nested_components cmap (directCompNames k.members) st1
      let r2 := collect_nested_components cmap rest r1.val
      ⟨r2.val, by
        intro x hx
        exact r2.property (r1.property (Finset.mem_insert_of_mem hx))⟩
    else
      let r := collect_nested_components cmap rest st
      ⟨r.val, r.property⟩
termination_by names st => ((allCompNames cmap \ st.visited).card, names.length)
decreasing_by
  · have hmem : n ∈ allCompNames cmap :=
      mem_allCompNames_of_lookup (Option.eq_some_of_isSome hg.1)
    exact Prod.Lex.left _ _ (card_sdiff_insert_lt hmem hg.2)
  · have hle : (allCompNames cmap \ r1.val.visited).card ≤
        (allCompNames cmap \ st.visited).card := by
      apply Finset.card_le_card
      apply Finset.sdiff_subset_sdiff (Finset.Subset.refl _)
      intro x hx
      exact r1.property (Finset.mem_insert_of_mem hx)
    rcases lt_or_eq_of_le hle with h | h
    · exact Prod.Lex.left _ _ h
    · rw [h]
      exact Prod.Lex.right _ (Nat.lt_succ_self _)
  · exact Prod.Lex.right _ (Nat.lt_succ_self _)

/-- The final state of `collect_nested_components` run over a list of
names. -/
def collectAll (cmap : List FixComponent) (names : List String) (st : CState) : CState :=
  (collect_nested_components cmap names st).val

/-- The messages retained by the whitelist (lines 31-34): a message is
kept exactly when its `msgtype` is in `messages_to_keep`. -/
def keptMessages (doc : FixDocument) (wl : List String) : List FixMessage :=
  doc.messages.filter (fun m => m.msgtype ∈ wl)

/-- The used-field / used-component seeds collected from the retained
messages (lines 36-39): only DIRECT `<field>` / `<component>` children of
each message are collected; `<group>` children and anything nested inside
them are never examined, and header/trailer are never consulted. -/
def seedState (kept : List FixMessage) : CState :=
  { visited := ∅
    usedFields := ((kept.map (fun m => directFieldNames m.members)).flatten).toFinset
    usedComps := ((kept.map (fun m => directCompNames m.members)).flatten).toFinset }

/-- The seed component names in message order (Python iterates
`list(used_components)`, a snapshot of the set, visiting each name once
in unspecified order; the resulting sets do not depend on the order, and
we enumerate first occurrences in message order). -/
def seedCompList (kept : List FixMessage) : List String :=
  firstOccurrences ((kept.map (fun m => directCompNames m.members)).flatten)

/-- The three used/visited sets after the whole collection phase of
`strip_fix_xml` (lines 30-63).  When the document has no components
section the closure loop is skipped entirely (lines 57-63 are guarded by
`components_el is not None`). -/
def stripUsed (doc : FixDocument) (wl : List String) : CState :=
  match doc.components with
  | none => seedState (keptMessages doc wl)
  | some comps =>
      collectAll comps (seedCompList (keptMessages doc wl))
        (seedState (keptMessages doc wl))

/-- The `name` attribute of a fields-section child (both `<field>` and
`<component>` children carry one; line 72 reads it on every child). -/
def entryName : FieldsEntry → String
  | .field f => f.name
  | .comp n _ => n

/-- `strip_fix_xml` (lines 10-84) restricted to its pure core: keep the
whitelisted messages, compute the used sets, drop the components whose
name is not in the used-components set and the fields-section children
whose name is not in the used-fields set.  Header and trailer sections are
left untouched (the script never reads them). -/
def strip_fix_xml (doc : FixDocument) (wl : List String) : FixDocument :=
  { messages := keptMessages doc wl
    fields := doc.fields.filter
      (fun e => entryName e ∈ (stripUsed doc wl).usedFields)
    components := doc.components.map
      (fun comps => comps.filter (fun c => c.name ∈ (stripUsed doc wl).usedComps))
    header := doc.header
    trailer := doc.trailer }

/-- Specification-side reachability (for comparing the pruner's computed
sets against the spec's closure description): a component name is
reachable when it is a seed, or a direct `<component>` child of the
definition of a reachable name that resolves in the component map. -/
inductive ReachableComp (cmap : List FixComponent) (seeds : List String) : String → Prop
  | seed {c : String} : c ∈ seeds → ReachableComp cmap seeds c
  | step {c d : String} {k : FixComponent} : ReachableComp cmap seeds c →
      lookupComp cmap c = some k → d ∈ directCompNames k.members →
      ReachableComp cmap seeds d

/-- Specification-side used-field characterisation: a seed field, or a
direct `<field>` child of the definition of a reachable component. -/
def ReachableField (cmap : List FixComponent) (seeds seedFields : List String)
    (x : String) : Prop :=
  x ∈ seedFields ∨ ∃ c k, ReachableComp cmap seeds c ∧
    lookupComp cmap c = some k ∧ x ∈ directFieldNames k.members

/-- Delete every `<group>` member of a member list (the pruner never
examines group members, so this must not change the computed sets). -/
def dropGroupMembers (ms : List MemberE) : List MemberE :=
  ms.filter (fun m => m.tag ≠ "group")

/-- Delete every `<group>` member of a message. -/
def dropGroupsMsg (m : FixMessage) : FixMessage :=
  { m with members := dropGroupMembers m.members }

/-- Delete every `<group>` member of a component definition. -/
def dropGroupsComp (c : FixComponent) : FixComponent :=
  { c with members := dropGroupMembers c.members }

/-- Delete every `<group>` member from all messages and all component
definitions of a document. -/
def docDropGroups (doc : FixDocument) : FixDocument :=
  { doc with
      messages := doc.messages.map dropGroupsMsg
      components := doc.components.map (fun cs => cs.map dropGroupsComp) }

/-! ## Infrastructure lemmas: fields sections -/

/-- The `<component>` children of a fields section (name, type pairs). -/
def compEntries (fs : List FieldsEntry) : List (String × String) :=
  fs.filterMap fun e =>
    match e with
    | .field _ => none
    | .comp n t => some (n, t)

theorem fieldEntries_cons_field (f : FieldDef) (fs : List FieldsEntry) :
    fieldEntries (.field f :: fs) = f :: fieldEntries fs := rfl

theorem fieldEntries_cons_comp (n t : String) (fs : List FieldsEntry) :
    fieldEntries (.comp n t :: fs) = fieldEntries fs := rfl

theorem fieldEntries_append (fs gs : List FieldsEntry) :
    fieldEntries (fs ++ gs) = fieldEntries fs ++ fieldEntries gs :=
  List.filterMap_append ..

theorem numbersOf_append (fs gs : List FieldsEntry) :
    numbersOf (fs ++ gs) = numbersOf fs ++ numbersOf gs := by
  simp [numbersOf, fieldEntries_append]

theorem fieldsWithNumber_append (fs gs : List FieldsEntry) (t : String) :
    fieldsWithNumber (fs ++ gs) t = fieldsWithNumber fs t ++ fieldsWithNumber gs t := by
  simp [fieldsWithNumber, fieldEntries_append]

theorem numbersOf_cons_field (f : FieldDef) (fs : List FieldsEntry) :
    numbersOf (.field f :: fs) = f.number :: numbersOf fs := rfl

theorem numbersOf_cons_comp (n t : String) (fs : List FieldsEntry) :
    numbersOf (.comp n t :: fs) = numbersOf fs := rfl

theorem compEntries_cons_field (f : FieldDef) (fs : List FieldsEntry) :
    compEntries (.field f :: fs) = compEntries fs := rfl

theorem compEntries_cons_comp (n t : String) (fs : List FieldsEntry) :
    compEntries (.comp n t :: fs) = (n, t) :: compEntries fs := rfl

theorem compEntries_append (fs gs : List FieldsEntry) :
    compEntries (fs ++ gs) = compEntries fs ++ compEntries gs :=
  List.filterMap_append ..

theorem fieldsWithNumber_cons_field (f : FieldDef) (fs : List FieldsEntry) (t : String) :
    fieldsWithNumber (.field f :: fs) t =
      if f.number = t then f :: fieldsWithNumber fs t else fieldsWithNumber fs t := by
  simp only [fieldsWithNumber, fieldEntries_cons_field, List.filter_cons]
  by_cases h : f.number = t <;> simp [h]

theorem fieldsWithNumber_cons_comp (n ty : String) (fs : List FieldsEntry) (t : String) :
    fieldsWithNumber (.comp n ty :: fs) t = fieldsWithNumber fs t := rfl

theorem mem_fieldEntries_of_withNumber {fs : List FieldsEntry} {t : String}
    {f : FieldDef} (h : f ∈ fieldsWithNumber fs t) :
    f ∈ fieldEntries fs ∧ f.number = t := by
  have hh := List.mem_filter.1 h
  exact ⟨hh.1, by simpa using hh.2⟩

theorem mem_numbersOf_iff (fs : List FieldsEntry) (t : String) :
    t ∈ numbersOf fs ↔ fieldsWithNumber fs t ≠ [] := by
  constructor
  · intro h hnil
    rw [numbersOf, List.mem_map] at h
    obtain ⟨f, hf, rfl⟩ := h
    have hmem : f ∈ fieldsWithNumber fs f.number := List.mem_filter.2 ⟨hf, by simp⟩
    rw [hnil] at hmem
    exact absurd hmem (List.not_mem_nil f)
  · intro h
    obtain ⟨f, hf⟩ := List.exists_mem_of_ne_nil _ h
    obtain ⟨hfe, hnum⟩ := mem_fieldEntries_of_withNumber hf
    rw [numbersOf, List.mem_map]
    exact ⟨f, hfe, hnum⟩

/-! Lemmas about `updateLastFieldValues`. -/

theorem updateLastFieldValues_withNumber_ne (fs : List FieldsEntry) (num : String)
    (g : FieldDef → List EnumValue) (t : String) (ht : t ≠ num) :
    fieldsWithNumber (updateLastFieldValues fs num g) t = fieldsWithNumber fs t := by
  induction fs with
  | nil => rfl
  | cons e rest ih =>
      cases e with
      | comp n ty =>
          simpa only [updateLastFieldValues, fieldsWithNumber_cons_comp] using ih
      | field f =>
          simp only [updateLastFieldValues]
          split
          · next hc =>
              have hft : ¬ f.number = t := fun hh => ht (hh ▸ hc.1)
              rw [fieldsWithNumber_cons_field, fieldsWithNumber_cons_field]
              simp [hft]
          · next hc =>
              rw [fieldsWithNumber_cons_field, fieldsWithNumber_cons_field, ih]

theorem updateLastFieldValues_withNumber_singleton {fs : List FieldsEntry}
    {num : String} {f : FieldDef} (g : FieldDef → List EnumValue)
    (h : fieldsWithNumber fs num = [f]) :
    fieldsWithNumber (updateLastFieldValues fs num g) num = [{ f with values := g f }] := by
  induction fs with
  | nil => simp [fieldsWithNumber, fieldEntries] at h
  | cons e rest ih =>
      cases e with
      | comp n ty =>
          rw [fieldsWithNumber_cons_comp] at h
          simpa only [updateLastFieldValues, fieldsWithNumber_cons_comp] using ih h
      | field f' =>
          rw [fieldsWithNumber_cons_field] at h
          by_cases hf' : f'.number = num
          · rw [if_pos hf'] at h
            injection h with hf hrest
            subst hf
            simp only [updateLastFieldValues]
            split
            · rw [fieldsWithNumber_cons_field]
              simp [hf', hrest]
            · next hnc => exact absurd ⟨hf', hrest⟩ hnc
          · rw [if_neg hf'] at h
            simp only [updateLastFieldValues]
            have hnc : ¬ (f'.number = num ∧ fieldsWithNumber rest num = []) := by
              intro hcc; exact hf' hcc.1
            rw [if_neg hnc, fieldsWithNumber_cons_field, if_neg hf', ih h]

theorem updateLastFieldValues_numbersOf (fs : List FieldsEntry) (num : String)
    (g : FieldDef → List EnumValue) :
    numbersOf (updateLastFieldValues fs num g) = numbersOf fs := by
  induction fs with
  | nil => rfl
  | cons e rest ih =>
      cases e with
      | comp n ty =>
          simpa only [updateLastFieldValues, numbersOf_cons_comp] using ih
      | field f =>
          simp only [updateLastFieldValues]
          split
          · rw [numbersOf_cons_field, numbersOf_cons_field]
          · rw [numbersOf_cons_field, numbersOf_cons_field, ih]

theorem updateLastFieldValues_compEntries (fs : List FieldsEntry) (num : String)
    (g : FieldDef → List EnumValue) :
    compEntries (updateLastFieldValues fs num g) = compEntries fs := by
  induction fs with
  | nil => rfl
  | cons e rest ih =>
      cases e with
      | comp n ty =>
          simp only [updateLastFieldValues, compEntries_cons_comp]
          rw [ih]
      | field f =>
          simp only [updateLastFieldValues]
          split
          · rw [compEntries_cons_field, compEntries_cons_field]
          · rw [compEntries_cons_field, compEntries_cons_field, ih]

theorem updateLastFieldValues_id {fs : List FieldsEntry} {num : String}
    {g : FieldDef → List EnumValue}
    (h : ∀ f ∈ fieldEntries fs, f.number = num → g f = f.values) :
    updateLastFieldValues fs num g = fs := by
  induction fs with
  | nil => rfl
  | cons e rest ih =>
      cases e with
      | comp n ty =>
          simp only [updateLastFieldValues]
          rw [ih (fun f hf => h f (by simpa [fieldEntries_cons_comp] using hf))]
      | field f =>
          simp only [updateLastFieldValues]
          split
          · next hc =>
              have hgf : g f = f.values := h f (by simp [fieldEntries_cons_field]) hc.1
              simp [hgf]
          · next hc =>
              rw [ih (fun f' hf' => h f' (by simp [fieldEntries_cons_field, hf']))]

/-! Lemmas about `findField35` and `updateFirstField35Values`. -/

theorem findField35_cons_field (f : FieldDef) (fs : List FieldsEntry) :
    findField35 (.field f :: fs) =
      if f.number = "35" then some f else findField35 fs := by
  simp only [findField35, fieldEntries_cons_field, List.find?_cons]
  by_cases h : f.number = "35" <;> simp [h]

theorem findField35_cons_comp (n t : String) (fs : List FieldsEntry) :
    findField35 (.comp n t :: fs) = findField35 fs := rfl

theorem findField35_isSome_iff (fs : List FieldsEntry) :
    (findField35 fs).isSome ↔ "35" ∈ numbersOf fs := by
  rw [findField35, List.find?_isSome, numbersOf, List.mem_map]
  constructor
  · rintro ⟨f, hf, hp⟩
    exact ⟨f, hf, by simpa using hp⟩
  · rintro ⟨f, hf, hp⟩
    exact ⟨f, hf, by simpa using hp⟩

theorem updateFirstField35Values_none {fs : List FieldsEntry}
    (g : FieldDef → List EnumValue) (h : findField35 fs = none) :
    updateFirstField35Values fs g = fs := by
  induction fs with
  | nil => rfl
  | cons e rest ih =>
      cases e with
      | comp n ty =>
          rw [findField35_cons_comp] at h
          simp only [updateFirstField35Values]
          rw [ih h]
      | field f =>
          rw [findField35_cons_field] at h
          by_cases hf : f.number = "35"
          · rw [if_pos hf] at h; exact absurd h (by simp)
          · rw [if_neg hf] at h
            simp only [updateFirstField35Values, if_neg hf]
            rw [ih h]

theorem updateFirstField35Values_withNumber_ne (fs : List FieldsEntry)
    (g : FieldDef → List EnumValue) (t : String) (ht : t ≠ "35") :
    fieldsWithNumber (updateFirstField35Values fs g) t = fieldsWithNumber fs t := by
  induction fs with
  | nil => rfl
  | cons e rest ih =>
      cases e with
      | comp n ty =>
          simpa only [updateFirstField35Values, fieldsWithNumber_cons_comp] using ih
      | field f =>
          simp only [updateFirstField35Values]
          by_cases hf : f.number = "35"
          · rw [if_pos hf, fieldsWithNumber_cons_field, fieldsWithNumber_cons_field]
            have hft : ¬ f.number = t := fun hh => ht (hh ▸ hf)
            simp [hft]
          · rw [if_neg hf, fieldsWithNumber_cons_field, fieldsWithNumber_cons_field, ih]

theorem updateFirstField35Values_withNumber_singleton {fs : List FieldsEntry}
    {f : FieldDef} (g : FieldDef → List EnumValue)
    (h : fieldsWithNumber fs "35" = [f]) :
    fieldsWithNumber (updateFirstField35Values fs g) "35" = [{ f with values := g f }] := by
  induction fs with
  | nil => simp [fieldsWithNumber, fieldEntries] at h
  | cons e rest ih =>
      cases e with
      | comp n ty =>
          rw [fieldsWithNumber_cons_comp] at h
          simpa only [updateFirstField35Values, fieldsWithNumber_cons_comp] using ih h
      | field f' =>
          rw [fieldsWithNumber_cons_field] at h
          by_cases hf' : f'.number = "35"
          · rw [if_pos hf'] at h
            injection h with hf hrest
            subst hf
            simp only [updateFirstField35Values, if_pos hf']
            rw [fieldsWithNumber_cons_field]
            simp [hf', hrest]
          · rw [if_neg hf'] at h
            simp only [updateFirstField35Values, if_neg hf']
            rw [fieldsWithNumber_cons_field, if_neg hf', ih h]

theorem updateFirstField35Values_findField35 {fs : List FieldsEntry}
    {f : FieldDef} (g : FieldDef → List EnumValue) (h : findField35 fs = some f) :
    findField35 (updateFirstField35Values fs g) = some { f with values := g f } := by
  induction fs with
  | nil => simp [findField35, fieldEntries] at h
  | cons e rest ih =>
      cases e with
      | comp n ty =>
          rw [findField35_cons_comp] at h
          simpa only [updateFirstField35Values, findField35_cons_comp] using ih h
      | field f' =>
          rw [findField35_cons_field] at h
          by_cases hf' : f'.number = "35"
          · rw [if_pos hf'] at h
            injection h with hf
            subst hf
            simp only [updateFirstField35Values, if_pos hf']
            rw [findField35_cons_field]
            simp [hf']
          · rw [if_neg hf'] at h
            simp only [updateFirstField35Values, if_neg hf']
            rw [findField35_cons_field, if_neg hf', ih h]

theorem updateFirstField35Values_numbersOf (fs : List FieldsEntry)
    (g : FieldDef → List EnumValue) :
    numbersOf (updateFirstField35Values fs g) = numbersOf fs := by
  induction fs with
  | nil => rfl
  | cons e rest ih =>
      cases e with
      | comp n ty =>
          simpa only [updateFirstField35Values, numbersOf_cons_comp] using ih
      | field f =>
          simp only [updateFirstField35Values]
          by_cases hf : f.number = "35"
          · rw [if_pos hf, numbersOf_cons_field, numbersOf_cons_field]
          · rw [if_neg hf, numbersOf_cons_field, numbersOf_cons_field, ih]

theorem updateFirstField35Values_compEntries (fs : List FieldsEntry)
    (g : FieldDef → List EnumValue) :
    compEntries (updateFirstField35Values fs g) = compEntries fs := by
  induction fs with
  | nil => rfl
  | cons e rest ih =>
      cases e with
      | comp n ty =>
          simp only [updateFirstField35Values, compEntries_cons_comp]
          rw [ih]
      | field f =>
          simp only [updateFirstField35Values]
          by_cases hf : f.number = "35"
          · rw [if_pos hf, compEntries_cons_field, compEntries_cons_field]
          · rw [if_neg hf, compEntries_cons_field, compEntries_cons_field, ih]

theorem updateFirstField35Values_id {fs : List FieldsEntry}
    {g : FieldDef → List EnumValue}
    (h : ∀ f ∈ fieldEntries fs, f.number = "35" → g f = f.values) :
    updateFirstField35Values fs g = fs := by
  induction fs with
  | nil => rfl
  | cons e rest ih =>
      cases e with
      | comp n ty =>
          simp only [updateFirstField35Values]
          rw [ih (fun f hf => h f (by simpa [fieldEntries_cons_comp] using hf))]
      | field f =>
          simp only [updateFirstField35Values]
          by_cases hf : f.number = "35"
          · rw [if_pos hf]
            have hgf : g f = f.values := h f (by simp [fieldEntries_cons_field]) hf
            simp [hgf]
          · rw [if_neg hf]
            rw [ih (fun f' hf' => h f' (by simp [fieldEntries_cons_field, hf']))]

/-! Lemmas about the field-merge loop. -/

theorem mergeFieldsGo_nil (orig : List String) (fs : List FieldsEntry) :
    mergeFieldsGo orig fs [] = fs := rfl

theorem mergeFieldsGo_cons (orig : List String) (fs : List FieldsEntry)
    (c : FieldDef) (cfs : List FieldDef) :
    mergeFieldsGo orig fs (c :: cfs) = mergeFieldsGo orig (mergeOneField orig fs c) cfs := rfl

theorem mergeOneField_withNumber_ne {orig : List String} {c : FieldDef}
    (fs : List FieldsEntry) {t : String} (h : c.number ≠ t) :
    fieldsWithNumber (mergeOneField orig fs c) t = fieldsWithNumber fs t := by
  unfold mergeOneField
  split
  · exact updateLastFieldValues_withNumber_ne fs c.number _ t (Ne.symm h)
  · rw [fieldsWithNumber_append, fieldsWithNumber_cons_field, if_neg h]
    simp [fieldsWithNumber, fieldEntries]

theorem mergeFieldsGo_withNumber_ne {orig : List String} {cfs : List FieldDef}
    (fs : List FieldsEntry) {t : String} (h : ∀ cf ∈ cfs, cf.number ≠ t) :
    fieldsWithNumber (mergeFieldsGo orig fs cfs) t = fieldsWithNumber fs t := by
  induction cfs generalizing fs with
  | nil => rfl
  | cons c cfs ih =>
      rw [mergeFieldsGo_cons, ih _ (fun cf hcf => h cf (List.mem_cons_of_mem _ hcf)),
        mergeOneField_withNumber_ne fs (h c (List.mem_cons_self c cfs))]

theorem mergeFieldsGo_withNumber_singleton {orig : List String} {cfs : List FieldDef}
    {fs : List FieldsEntry} {t : String} {bf cf : FieldDef}
    (ht : t ∈ orig) (hfs : fieldsWithNumber fs t = [bf])
    (hcfs : cfs.filter (fun c => c.number = t) = [cf]) :
    fieldsWithNumber (mergeFieldsGo orig fs cfs) t =
      [{ bf with values := bf.values ++
          cf.values.filter (fun v => ¬ bf.values.any (fun w => w.enum = v.enum)) }] := by
  induction cfs generalizing fs bf with
  | nil => simp at hcfs
  | cons c cfs ih =>
      rw [List.filter_cons] at hcfs
      by_cases hc : c.number = t
      · rw [if_pos (by simpa using hc)] at hcfs
        injection hcfs with hceq hrest
        subst hceq
        rw [mergeFieldsGo_cons]
        have hstep : fieldsWithNumber (mergeOneField orig fs c) t =
            [{ bf with values := bf.values ++
                c.values.filter (fun v => ¬ bf.values.any (fun w => w.enum = v.enum)) }] := by
          unfold mergeOneField
          rw [if_pos (hc ▸ ht)]
          have := updateLastFieldValues_withNumber_singleton
            (fun df => df.values ++
              c.values.filter (fun v => ¬ df.values.any (fun w => w.enum = v.enum)))
            (hc ▸ hfs)
          simpa [hc] using this
        rw [mergeFieldsGo_withNumber_ne _
          (fun cf' hcf' => by
            have := List.filter_eq_nil_iff.1 hrest cf' hcf'
            simpa using this), hstep]
      · rw [if_neg (by simpa using hc)] at hcfs
        rw [mergeFieldsGo_cons]
        exact ih (by rw [mergeOneField_withNumber_ne fs hc]; exact hfs) hcfs

theorem mergeOneField_numbersOf (orig : List String) (fs : List FieldsEntry)
    (c : FieldDef) :
    numbersOf (mergeOneField orig fs c) =
      if c.number ∈ orig then numbersOf fs else numbersOf fs ++ [c.number] := by
  unfold mergeOneField
  split
  · rw [updateLastFieldValues_numbersOf]
  · rw [numbersOf_append, numbersOf_cons_field]; rfl

theorem mergeFieldsGo_numbersOf (orig : List String) (fs : List FieldsEntry)
    (cfs : List FieldDef) :
    numbersOf (mergeFieldsGo orig fs cfs) =
      numbersOf fs ++ (cfs.filter (fun c => c.number ∉ orig)).map (·.number) := by
  induction cfs generalizing fs with
  | nil => simp [mergeFieldsGo_nil]
  | cons c cfs ih =>
      rw [mergeFieldsGo_cons, ih, mergeOneField_numbersOf, List.filter_cons]
      by_cases hc : c.number ∈ orig
      · rw [if_pos hc, if_neg (by simpa using hc)]
      · rw [if_neg hc, if_pos (by simpa using hc), List.map_cons, List.append_assoc,
          List.singleton_append]

theorem mergeOneField_compEntries (orig : List String) (fs : List FieldsEntry)
    (c : FieldDef) :
    compEntries (mergeOneField orig fs c) = compEntries fs := by
  unfold mergeOneField
  split
  · rw [updateLastFieldValues_compEntries]
  · rw [compEntries_append, compEntries_cons_field]
    simp [compEntries]

theorem mergeFieldsGo_compEntries (orig : List String) (fs : List FieldsEntry)
    (cfs : List FieldDef) :
    compEntries (mergeFieldsGo orig fs cfs) = compEntries fs := by
  induction cfs generalizing fs with
  | nil => rfl
  | cons c cfs ih => rw [mergeFieldsGo_cons, ih, mergeOneField_compEntries]

theorem mergeFieldsGo_id {orig : List String} {fs : List FieldsEntry}
    {cfs : List FieldDef} (h : ∀ cf ∈ cfs, mergeOneField orig fs cf = fs) :
    mergeFieldsGo orig fs cfs = fs := by
  induction cfs with
  | nil => rfl
  | cons c cfs ih =>
      rw [mergeFieldsGo_cons, h c (List.mem_cons_self c cfs)]
      exact ih (fun cf hcf => h cf (List.mem_cons_of_mem _ hcf))

/-! Lemmas about the diagnostics. -/

theorem dupTagDiags_no_conflict (fs : List FieldsEntry) (t : String) :
    (dupTagDiags fs).count (Diag.conflict t) = 0 := by
  rw [List.count_eq_zero]
  intro hmem
  unfold dupTagDiags at hmem
  obtain ⟨u, _, hu⟩ := List.mem_filterMap.1 hmem
  by_cases hc : 2 ≤ ((numbersOf fs).filter (· ≠ "")).count u
  · rw [if_pos hc] at hu
    exact absurd hu (by simp)
  · rw [if_neg hc] at hu
    exact absurd hu (by simp)

theorem compareOne_ne_conflict {baseFs : List FieldsEntry} {cf : FieldDef}
    {t : String} (h : cf.number ≠ t) {d : Diag}
    (hd : compareOne baseFs cf = some d) : d ≠ Diag.conflict t := by
  unfold compareOne at hd
  split at hd
  · exact absurd hd (by simp)
  · split at hd
    · intro hdd
      rw [hdd] at hd
      injection hd with hd'
      injection hd' with hnum
      exact h hnum
    · intro hdd
      rw [hdd] at hd
      exact absurd hd (by simp)

theorem count_conflict_filterMap_zero {baseFs : List FieldsEntry}
    {l : List FieldDef} {t : String} (h : ∀ c ∈ l, c.number ≠ t) :
    (l.filterMap (compareOne baseFs)).count (Diag.conflict t) = 0 := by
  rw [List.count_eq_zero]
  intro hmem
  obtain ⟨c, hc, hcd⟩ := List.mem_filterMap.1 hmem
  exact compareOne_ne_conflict (h c hc) hcd rfl

theorem count_conflict_filterMap_one {baseFs : List FieldsEntry}
    {l : List FieldDef} {t : String} {bf cf : FieldDef}
    (hB : (fieldsWithNumber baseFs t).getLast? = some bf)
    (hl : l.filter (fun c => c.number = t) = [cf])
    (hconf : bf.name ≠ cf.name ∨ bf.type ≠ cf.type) :
    (l.filterMap (compareOne baseFs)).count (Diag.conflict t) = 1 := by
  induction l with
  | nil => simp at hl
  | cons c rest ih =>
      rw [List.filter_cons] at hl
      by_cases hc : c.number = t
      · rw [if_pos (by simpa using hc)] at hl
        injection hl with hceq hrest
        subst hceq
        have hstep : compareOne baseFs c = some (Diag.conflict t) := by
          unfold compareOne
          rw [hc, hB]
          show (if bf.name ≠ c.name ∨ bf.type ≠ c.type then some (Diag.conflict t)
            else some (Diag.dupTag t)) = some (Diag.conflict t)
          rw [if_pos hconf]
        rw [List.filterMap_cons, hstep, List.count_cons_self,
          count_conflict_filterMap_zero
            (fun c' hc' => by simpa using List.filter_eq_nil_iff.1 hrest c' hc')]
      · rw [if_neg (by simpa using hc)] at hl
        rw [List.filterMap_cons]
        cases hdo : compareOne baseFs c with
        | none => exact ih hl
        | some d =>
            rw [List.count_cons_of_ne (Ne.symm (compareOne_ne_conflict hc hdo))]
            exact ih hl

/-! Lemmas about the MsgType maintenance fold. -/

theorem addMsgTypeStep_prefix (vs : List EnumValue) (m : FixMessage) :
    ∃ extra, addMsgTypeStep vs m = vs ++ extra := by
  unfold addMsgTypeStep
  split
  · exact ⟨[], by simp⟩
  · exact ⟨_, rfl⟩

theorem addMsgType_foldl_prefix (msgs : List FixMessage) (vs : List EnumValue) :
    ∃ extra, msgs.foldl addMsgTypeStep vs = vs ++ extra := by
  induction msgs generalizing vs with
  | nil => exact ⟨[], by simp⟩
  | cons m rest ih =>
      rw [List.foldl_cons]
      obtain ⟨e1, he1⟩ := addMsgTypeStep_prefix vs m
      obtain ⟨e2, he2⟩ := ih (addMsgTypeStep vs m)
      exact ⟨e1 ++ e2, by rw [he2, he1, List.append_assoc]⟩

theorem addMsgType_foldl_mem {vs : List EnumValue} {v : EnumValue}
    (msgs : List FixMessage) (h : v ∈ vs) :
    v ∈ msgs.foldl addMsgTypeStep vs := by
  obtain ⟨extra, he⟩ := addMsgType_foldl_prefix msgs vs
  rw [he]
  exact List.mem_append_left _ h

theorem addMsgType_foldl_covers {msgs : List FixMessage} {m : FixMessage}
    (vs : List EnumValue) (h : m ∈ msgs) :
    ∃ v ∈ msgs.foldl addMsgTypeStep vs, v.enum = m.msgtype := by
  induction msgs generalizing vs with
  | nil => simp at h
  | cons m' rest ih =>
      rw [List.foldl_cons]
      rcases List.mem_cons.1 h with rfl | hrest
      · by_cases hany : vs.any (fun v => v.enum = m.msgtype)
        · obtain ⟨v, hv, hve⟩ := List.any_eq_true.1 hany
          exact ⟨v, addMsgType_foldl_mem rest
            (by unfold addMsgTypeStep; split <;> simp [hv]), by simpa using hve⟩
        · refine ⟨⟨m.msgtype, upperString m.name⟩, addMsgType_foldl_mem rest ?_, rfl⟩
          unfold addMsgTypeStep
          rw [if_neg (by simpa using hany)]
          simp
      · exact ih _ hrest

theorem addMsgType_foldl_provenance {msgs : List FixMessage} {vs : List EnumValue}
    {v : EnumValue} (h : v ∈ msgs.foldl addMsgTypeStep vs) :
    v ∈ vs ∨ ∃ m ∈ msgs, v = ⟨m.msgtype, upperString m.name⟩ := by
  induction msgs generalizing vs with
  | nil => exact Or.inl (by simpa using h)
  | cons m rest ih =>
      rw [List.foldl_cons] at h
      rcases ih h with hin | ⟨m', hm', rfl⟩
      · unfold addMsgTypeStep at hin
        split at hin
        · exact Or.inl hin
        · rcases List.mem_append.1 hin with hl | hr
          · exact Or.inl hl
          · exact Or.inr ⟨m, List.mem_cons_self _ _, List.mem_singleton.1 hr⟩
      · exact Or.inr ⟨m', List.mem_cons_of_mem _ hm', rfl⟩

theorem addMsgType_foldl_id {msgs : List FixMessage} {vs : List EnumValue}
    (h : ∀ m ∈ msgs, ∃ v ∈ vs, v.enum = m.msgtype) :
    msgs.foldl addMsgTypeStep vs = vs := by
  induction msgs with
  | nil => rfl
  | cons m rest ih =>
      rw [List.foldl_cons]
      have hstep : addMsgTypeStep vs m = vs := by
        unfold addMsgTypeStep
        obtain ⟨v, hv, hve⟩ := h m (List.mem_cons_self _ _)
        rw [if_pos (List.any_eq_true.2 ⟨v, hv, by simpa using hve⟩)]
      rw [hstep]
      exact ih (fun m' hm' => h m' (List.mem_cons_of_mem _ hm'))

/-! Inversion lemmas for the merge plumbing. -/

theorem merge_messages_section_inv {fs : List FieldsEntry}
    {bm cm ms2 : List FixMessage} {fs2 : List FieldsEntry}
    (h : merge_messages_section fs bm cm = some (fs2, ms2)) :
    ms2 = bm ++ cm.filter (fun m => m.name ≠ "" ∧ m.name ∉ bm.map (·.name)) ∧
    ((cm = [] ∧ fs2 = fs) ∨
      (cm ≠ [] ∧ ∃ f35, findField35 fs = some f35 ∧
        fs2 = updateFirstField35Values fs (fun f => addMsgTypeValues f cm))) := by
  unfold merge_messages_section at h
  cases cm with
  | nil =>
      injection h with h'
      have h1 := congrArg Prod.fst h'
      have h2 := congrArg Prod.snd h'
      exact ⟨h2.symm, Or.inl ⟨rfl, h1.symm⟩⟩
  | cons c cs =>
      cases h35 : findField35 fs with
      | none => rw [h35] at h; exact absurd h (by simp)
      | some f35 =>
          rw [h35] at h
          injection h with h'
          have h1 := congrArg Prod.fst h'
          have h2 := congrArg Prod.snd h'
          exact ⟨h2.symm, Or.inr ⟨by simp, f35, rfl, h1.symm⟩⟩

theorem merge_messages_section_isSome (fs : List FieldsEntry)
    (bm cm : List FixMessage) (h : cm = [] ∨ (findField35 fs).isSome) :
    (merge_messages_section fs bm cm).isSome := by
  unfold merge_messages_section
  cases cm with
  | nil => simp
  | cons c cs =>
      rcases h with h | h
      · exact absurd h (by simp)
      · obtain ⟨f35, hf35⟩ := Option.isSome_iff_exists.1 h
        rw [hf35]
        simp

theorem merge_components_section_inv {bc cc : Option (List FixComponent)}
    {out : Option (List FixComponent)}
    (h : merge_components_section bc cc = some out) :
    (cc = none ∧ out = bc) ∨
    (∃ cs bs, cc = some cs ∧ bc = some bs ∧
      out = some (bs ++ cs.filter (fun c => c.name ≠ "" ∧ c.name ∉ bs.map (·.name)))) := by
  unfold merge_components_section at h
  cases cc with
  | none =>
      injection h with h'
      exact Or.inl ⟨rfl, h'.symm⟩
  | some cs =>
      cases bc with
      | none => exact absurd h (by simp)
      | some bs =>
          injection h with h'
          exact Or.inr ⟨cs, bs, rfl, rfl, h'.symm⟩

theorem merge_components_section_isSome (bc cc : Option (List FixComponent))
    (h : cc = none ∨ bc.isSome) :
    (merge_components_section bc cc).isSome := by
  unfold merge_components_section
  cases cc with
  | none => simp
  | some cs =>
      rcases h with h | h
      · exact absurd h (by simp)
      · obtain ⟨bs, hbs⟩ := Option.isSome_iff_exists.1 h
        rw [hbs]
        simp

theorem merge_fix_xml_some_inv {base custom doc : FixDocument} {diags : List Diag}
    (h : merge_fix_xml base custom = some (doc, diags)) :
    ∃ fields2 msgs2 comps2,
      merge_messages_section (merge_fields base.fields custom.fields)
        base.messages custom.messages = some (fields2, msgs2) ∧
      merge_components_section base.components custom.components = some comps2 ∧
      doc = { base with fields := fields2, messages := msgs2, components := comps2 } ∧
      diags = dupTagDiags custom.fields ++ comparisonDiags base.fields custom.fields := by
  unfold merge_fix_xml at h
  cases hm : merge_messages_section (merge_fields base.fields custom.fields)
      base.messages custom.messages with
  | none => rw [hm] at h; exact absurd h (by simp)
  | some p =>
      obtain ⟨fields2, msgs2⟩ := p
      rw [hm] at h
      cases hc : merge_components_section base.components custom.components with
      | none => rw [hc] at h; exact absurd h (by simp)
      | some comps2 =>
          rw [hc] at h
          injection h with h'
          have h1 := congrArg Prod.fst h'
          have h2 := congrArg Prod.snd h'
          exact ⟨fields2, msgs2, comps2, rfl, rfl, h1.symm, h2.symm⟩

theorem merge_fix_xml_isSome (base custom : FixDocument)
    (hmsg : custom.messages = [] ∨
      (findField35 (merge_fields base.fields custom.fields)).isSome)
    (hcomp : custom.components = none ∨ base.components.isSome) :
    (merge_fix_xml base custom).isSome := by
  unfold merge_fix_xml
  obtain ⟨p, hp⟩ := Option.isSome_iff_exists.1
    (merge_messages_section_isSome (merge_fields base.fields custom.fields)
      base.messages custom.messages hmsg)
  rw [hp]
  obtain ⟨c, hc⟩ := Option.isSome_iff_exists.1
    (merge_components_section_isSome base.components custom.components hcomp)
  rw [hc]
  simp

/-! ## Claim C1 -/

/-- Base document of the C1 scenario: tag 100 is (Foo, STRING) with no
enum values. -/
def exC1base : FixDocument :=
  ⟨[], [.field ⟨"100", "Foo", "STRING", []⟩], none, none, none⟩

/-- Overlay document of the C1 scenario: tag 100 is (Bar, INT) and carries
one enum value. -/
def exC1custom : FixDocument :=
  ⟨[], [.field ⟨"100", "Bar", "INT", [⟨"X", "x"⟩]⟩], none, none, none⟩

/-- C1 (counterexample): with a conflicting overlay field that carries an
enum value, the merge does NOT leave the base definition untouched: the
merged tag-100 field keeps base's name and type but gains the overlay's
enum value, so the overlay's conflicting field is not dropped entirely. -/
theorem C1_counterexample :
    ∃ doc diags, merge_fix_xml exC1base exC1custom = some (doc, diags) ∧
      diags.count (Diag.conflict "100") = 1 ∧
      fieldsWithNumber doc.fields "100" = [⟨"100", "Foo", "STRING", [⟨"X", "x"⟩]⟩] ∧
      fieldsWithNumber exC1base.fields "100" = [⟨"100", "Foo", "STRING", []⟩] ∧
      fieldsWithNumber doc.fields "100" ≠ fieldsWithNumber exC1base.fields "100" := by
  refine ⟨⟨[], [.field ⟨"100", "Foo", "STRING", [⟨"X", "x"⟩]⟩], none, none, none⟩,
    [Diag.conflict "100"], rfl, by decide, by decide, by decide, by decide⟩

/-- C1 (amended): when base and overlay each define tag `t` exactly once
with different name or type (and `t` is not the message-type tag touched
by message merging), the merged document keeps base's name and type for
`t`, the overlay's field element is not appended (the result still has
exactly one field numbered `t`), exactly one conflict is reported for `t`
-- but overlay enum values whose codes are new are still appended to
base's field, so base's enum-value list is extended rather than left
untouched. -/
theorem C1_theorem {B O doc : FixDocument} {diags : List Diag} {t : String}
    {bf cf : FieldDef}
    (hB : fieldsWithNumber B.fields t = [bf])
    (hO : fieldsWithNumber O.fields t = [cf])
    (hconf : bf.name ≠ cf.name ∨ bf.type ≠ cf.type)
    (h35 : t ≠ "35" ∨ O.messages = [])
    (hm : merge_fix_xml B O = some (doc, diags)) :
    fieldsWithNumber doc.fields t =
      [{ bf with values := bf.values ++
          cf.values.filter (fun v => ¬ bf.values.any (fun w => w.enum = v.enum)) }] ∧
    diags.count (Diag.conflict t) = 1 := by
  obtain ⟨fields2, msgs2, comps2, hmsg, hcomp, hdoc, hdiags⟩ := merge_fix_xml_some_inv hm
  have ht_orig : t ∈ numbersOf B.fields := by
    rw [mem_numbersOf_iff, hB]
    simp
  have h1 : fieldsWithNumber (merge_fields B.fields O.fields) t =
      [{ bf with values := bf.values ++
          cf.values.filter (fun v => ¬ bf.values.any (fun w => w.enum = v.enum)) }] := by
    unfold merge_fields
    exact mergeFieldsGo_withNumber_singleton ht_orig hB hO
  have hfields2 : fieldsWithNumber fields2 t =
      [{ bf with values := bf.values ++
          cf.values.filter (fun v => ¬ bf.values.any (fun w => w.enum = v.enum)) }] := by
    rcases (merge_messages_section_inv hmsg).2 with ⟨_, rfl⟩ | ⟨hne, f35, hf35, rfl⟩
    · exact h1
    · have ht35 : t ≠ "35" := by
        rcases h35 with h | h
        · exact h
        · exact absurd h hne
      rw [updateFirstField35Values_withNumber_ne _ _ t ht35]
      exact h1
  constructor
  · rw [hdoc]
    exact hfields2
  · rw [hdiags, List.count_append, dupTagDiags_no_conflict]
    have hlast : (fieldsWithNumber B.fields t).getLast? = some bf := by
      rw [hB]; rfl
    rw [comparisonDiags, count_conflict_filterMap_one hlast hO hconf]

/-- C1 witness: the amended theorem applied to the concrete conflicting
pair of documents. -/
theorem C1_witness :
    fieldsWithNumber exC1base.fields "100" = [⟨"100", "Foo", "STRING", []⟩] ∧
    fieldsWithNumber exC1custom.fields "100" = [⟨"100", "Bar", "INT", [⟨"X", "x"⟩]⟩] ∧
    (("Foo" : String) ≠ "Bar" ∨ ("STRING" : String) ≠ "INT") ∧
    (("100" : String) ≠ "35" ∨ exC1custom.messages = []) ∧
    (fieldsWithNumber
        ({ messages := [], fields := [.field ⟨"100", "Foo", "STRING", [⟨"X", "x"⟩]⟩],
           components := none, header := none, trailer := none } : FixDocument).fields "100" =
      [{ number := "100", name := "Foo", type := "STRING",
         values := ([] : List EnumValue) ++
           [⟨"X", "x"⟩].filter (fun v => ¬ ([] : List EnumValue).any (fun w => w.enum = v.enum)) }] ∧
     [Diag.conflict "100"].count (Diag.conflict "100") = 1) := by
  refine ⟨by decide, by decide, Or.inl (by decide), Or.inl (by decide), ?_⟩
  exact @C1_theorem exC1base exC1custom
    ⟨[], [.field ⟨"100", "Foo", "STRING", [⟨"X", "x"⟩]⟩], none, none, none⟩
    [Diag.conflict "100"] "100" ⟨"100", "Foo", "STRING", []⟩
    ⟨"100", "Bar", "INT", [⟨"X", "x"⟩]⟩
    (by decide) (by decide) (Or.inl (by decide)) (Or.inl (by decide)) rfl

/-! ## Claim C4 -/

/-- Base of the C4 scenario: one message (name "Order", msgtype "D") and a
message-type field 35 with no enum values. -/
def exC4base : FixDocument :=
  ⟨[⟨"Order", "D", "app", []⟩], [.field ⟨"35", "MsgType", "STRING", []⟩],
   none, none, none⟩

/-- Overlay of the C4 scenario: one message with the SAME name "Order"
(so it is not newly merged) but msgtype "X". -/
def exC4custom : FixDocument :=
  ⟨[⟨"Order", "X", "app", []⟩], [], none, none, none⟩

/-- C4 (counterexample): merging an overlay whose only message already
exists in the base (same name, hence not newly merged) still adds a new
enum value under tag 35 for that message's msgtype, contradicting "for
every newly merged message ... and for no other message". -/
theorem C4_counterexample :
    ∃ doc diags, merge_fix_xml exC4base exC4custom = some (doc, diags) ∧
      doc.messages = exC4base.messages ∧
      (∀ m ∈ exC4custom.messages, m.name ∈ exC4base.messages.map FixMessage.name) ∧
      findField35 exC4base.fields = some ⟨"35", "MsgType", "STRING", []⟩ ∧
      findField35 doc.fields = some ⟨"35", "MsgType", "STRING", [⟨"X", "ORDER"⟩]⟩ := by
  refine ⟨⟨[⟨"Order", "D", "app", []⟩],
    [.field ⟨"35", "MsgType", "STRING", [⟨"X", "ORDER"⟩]⟩], none, none, none⟩,
    [], rfl, rfl, ?_, by decide, by decide⟩
  intro m hm
  have hm' := List.mem_singleton.1 hm
  subst hm'
  decide

/-- C4 (amended): whenever the merge succeeds, the first field numbered 35
of the merged document carries an enum value for the msgtype of EVERY
overlay message (newly merged or not), and every one of its enum values
either was already present after the field-merge phase or is
`(msgtype, NAME)` for some overlay message. -/
theorem C4_theorem {B O doc : FixDocument} {diags : List Diag}
    (hm : merge_fix_xml B O = some (doc, diags)) :
    (∀ m ∈ O.messages, ∃ f, findField35 doc.fields = some f ∧
      m.msgtype ∈ f.values.map (fun v => v.enum)) ∧
    (∀ f f', findField35 (merge_fields B.fields O.fields) = some f' →
      findField35 doc.fields = some f →
      ∀ v ∈ f.values, v ∈ f'.values ∨
        ∃ m ∈ O.messages, v = ⟨m.msgtype, upperString m.name⟩) := by
  obtain ⟨fields2, msgs2, comps2, hmsg, hcomp, hdoc, hdiags⟩ := merge_fix_xml_some_inv hm
  have hdf : doc.fields = fields2 := by rw [hdoc]
  rcases (merge_messages_section_inv hmsg).2 with ⟨hcm, rfl⟩ | ⟨hne, f35, hf35, rfl⟩
  · constructor
    · intro m hmem
      rw [hcm] at hmem
      exact absurd hmem (List.not_mem_nil m)
    · intro f f' hf' hf v hv
      rw [hdf] at hf
      rw [hf'] at hf
      injection hf with hff
      subst hff
      exact Or.inl hv
  · constructor
    · intro m hmem
      refine ⟨{ f35 with values := addMsgTypeValues f35 O.messages }, ?_, ?_⟩
      · rw [hdf]
        exact updateFirstField35Values_findField35 _ hf35
      · obtain ⟨v, hv, hve⟩ := addMsgType_foldl_covers f35.values hmem
        exact List.mem_map.2 ⟨v, hv, hve⟩
    · intro f f' hf' hf v hv
      rw [hf35] at hf'
      injection hf' with hff'
      subst hff'
      rw [hdf, updateFirstField35Values_findField35 _ hf35] at hf
      injection hf with hff
      subst hff
      exact addMsgType_foldl_provenance hv

/-- C4 witness: the amended theorem applied to the concrete overlay whose
message is not newly merged. -/
theorem C4_witness :
    (∀ m ∈ exC4custom.messages,
      ∃ f, findField35
        (({ messages := [⟨"Order", "D", "app", []⟩],
            fields := [.field ⟨"35", "MsgType", "STRING", [⟨"X", "ORDER"⟩]⟩],
            components := none, header := none, trailer := none } : FixDocument)).fields = some f ∧
        m.msgtype ∈ f.values.map (fun v => v.enum)) ∧
    (∀ f f', findField35 (merge_fields exC4base.fields exC4custom.fields) = some f' →
      findField35
        (({ messages := [⟨"Order", "D", "app", []⟩],
            fields := [.field ⟨"35", "MsgType", "STRING", [⟨"X", "ORDER"⟩]⟩],
            components := none, header := none, trailer := none } : FixDocument)).fields = some f →
      ∀ v ∈ f.values, v ∈ f'.values ∨
        ∃ m ∈ exC4custom.messages, v = ⟨m.msgtype, upperString m.name⟩) :=
  @C4_theorem exC4base exC4custom
    ⟨[⟨"Order", "D", "app", []⟩],
      [.field ⟨"35", "MsgType", "STRING", [⟨"X", "ORDER"⟩]⟩], none, none, none⟩
    [] rfl

/-! ## Claim C5 -/

/-- Well-formedness of a document per the spec's data model: the five
sections are present, tag numbers are unique, field names are unique, and
enum codes are unique per field. -/
def WellFormedDoc (d : FixDocument) : Prop :=
  (numbersOf d.fields).Nodup ∧
  ((fieldEntries d.fields).map (fun f => f.name)).Nodup ∧
  (∀ f ∈ fieldEntries d.fields, (f.values.map (fun v => v.enum)).Nodup) ∧
  d.components.isSome ∧ d.header.isSome ∧ d.trailer.isSome

instance (d : FixDocument) : Decidable (WellFormedDoc d) := by
  unfold WellFormedDoc
  infer_instance

/-- A well-formed base without any field numbered 35. -/
def exC5base : FixDocument :=
  ⟨[], [.field ⟨"1", "A", "STRING", []⟩], some [], some [], some []⟩

/-- A well-formed overlay with one message. -/
def exC5custom : FixDocument :=
  ⟨[⟨"M", "X", "app", []⟩], [], some [], some [], some []⟩

/-- C5 (counterexample): a pair of well-formed documents on which the
merge does not run to completion -- the base lacks a field numbered 35
and the overlay has a message, so line 92 calls `.find` on `None` and the
Python code raises (modelled as `none`).  The failure is unrelated to
duplicate or conflicting tags (there are none here). -/
theorem C5_counterexample :
    WellFormedDoc exC5base ∧ WellFormedDoc exC5custom ∧
      merge_fix_xml exC5base exC5custom = none := ⟨by decide, by decide, rfl⟩

/-- C5 (amended): provided the base defines tag 35 whenever the overlay
has at least one message, and the base has a components section whenever
the overlay does, the merge always runs to completion and produces a
merged result -- with no hypothesis whatsoever about duplicate or
conflicting tags, which only ever produce diagnostics. -/
theorem C5_theorem (B O : FixDocument)
    (h35 : O.messages = [] ∨ "35" ∈ numbersOf B.fields)
    (hc : O.components = none ∨ B.components.isSome) :
    (merge_fix_xml B O).isSome := by
  apply merge_fix_xml_isSome B O _ hc
  rcases h35 with h | h
  · exact Or.inl h
  · refine Or.inr ?_
    rw [findField35_isSome_iff]
    unfold merge_fields
    rw [mergeFieldsGo_numbersOf]
    exact List.mem_append_left _ h

/-- A base document carrying tag 35, used to witness C5. -/
def exC5okBase : FixDocument :=
  ⟨[], [.field ⟨"35", "MsgType", "STRING", []⟩, .field ⟨"35", "Dup", "INT", []⟩],
   some [], some [], some []⟩

/-- An overlay that duplicates tag 35 with a conflicting definition, used
to witness C5: conflicts and duplicates do not prevent completion. -/
def exC5okCustom : FixDocument :=
  ⟨[⟨"M", "X", "app", []⟩],
   [.field ⟨"35", "Other", "INT", []⟩, .field ⟨"35", "Other2", "CHAR", []⟩],
   none, some [], some []⟩

/-- C5 witness: the amended theorem applied to a concrete pair full of
duplicate and conflicting tags. -/
theorem C5_witness :
    (exC5okCustom.messages = [] ∨ "35" ∈ numbersOf exC5okBase.fields) ∧
    (exC5okCustom.components = none ∨ exC5okBase.components.isSome) ∧
    (merge_fix_xml exC5okBase exC5okCustom).isSome :=
  ⟨Or.inr (by decide), Or.inl rfl,
    C5_theorem exC5okBase exC5okCustom (Or.inr (by decide)) (Or.inl rfl)⟩

/-! ## Claim C7 -/

theorem findField35_eq_of_withNumber_singleton {fs : List FieldsEntry}
    {f : FieldDef} (h : fieldsWithNumber fs "35" = [f]) :
    findField35 fs = some f := by
  induction fs with
  | nil => simp [fieldsWithNumber, fieldEntries] at h
  | cons e rest ih =>
      cases e with
      | comp n ty =>
          rw [fieldsWithNumber_cons_comp] at h
          rw [findField35_cons_comp]
          exact ih h
      | field f' =>
          rw [fieldsWithNumber_cons_field] at h
          rw [findField35_cons_field]
          by_cases hf' : f'.number = "35"
          · rw [if_pos hf'] at h
            injection h with h1 h2
            rw [if_pos hf', h1]
          · rw [if_neg hf'] at h
            rw [if_neg hf']
            exact ih h

theorem withNumber_singleton_of_nodup {fs : List FieldsEntry} {t : String}
    (h : (numbersOf fs).Nodup) (ht : t ∈ numbersOf fs) :
    ∃ f, fieldsWithNumber fs t = [f] := by
  induction fs with
  | nil => simp [numbersOf, fieldEntries] at ht
  | cons e rest ih =>
      cases e with
      | comp n ty =>
          rw [numbersOf_cons_comp] at h ht
          obtain ⟨f, hf⟩ := ih h ht
          exact ⟨f, by rw [fieldsWithNumber_cons_comp]; exact hf⟩
      | field f' =>
          rw [numbersOf_cons_field] at h ht
          rw [List.nodup_cons] at h
          by_cases hf' : f'.number = t
          · refine ⟨f', ?_⟩
            rw [fieldsWithNumber_cons_field, if_pos hf']
            have hnot : t ∉ numbersOf rest := hf' ▸ h.1
            have : fieldsWithNumber rest t = [] := by
              by_contra hne
              exact hnot ((mem_numbersOf_iff rest t).2 hne)
            rw [this]
          · rcases List.mem_cons.1 ht with rfl | hrest
            · exact absurd rfl hf'
            · obtain ⟨f, hf⟩ := ih h.2 hrest
              exact ⟨f, by rw [fieldsWithNumber_cons_field, if_neg hf']; exact hf⟩

/-- What happens to the unique field numbered `t` across the
message-merge phase. -/
theorem fields2_withNumber {fields1 fields2 : List FieldsEntry}
    {cm : List FixMessage} {t : String} {f : FieldDef}
    (hinv : (cm = [] ∧ fields2 = fields1) ∨
      (cm ≠ [] ∧ ∃ f35, findField35 fields1 = some f35 ∧
        fields2 = updateFirstField35Values fields1 (fun x => addMsgTypeValues x cm)))
    (hf : fieldsWithNumber fields1 t = [f]) :
    ((t ≠ "35" ∨ cm = []) → fieldsWithNumber fields2 t = [f]) ∧
    (∃ rf, fieldsWithNumber fields2 t = [rf] ∧
      (∀ v ∈ f.values, v ∈ rf.values) ∧
      (∀ v ∈ rf.values, v ∈ f.values ∨ ∃ m ∈ cm, v = ⟨m.msgtype, upperString m.name⟩)) := by
  rcases hinv with ⟨hcm, rfl⟩ | ⟨hne, f35, h35, rfl⟩
  · exact ⟨fun _ => hf, f, hf, fun v hv => hv, fun v hv => Or.inl hv⟩
  · by_cases ht : t = "35"
    · subst ht
      have hf35 : f35 = f := by
        have := findField35_eq_of_withNumber_singleton hf
        rw [this] at h35
        exact (Option.some.inj h35).symm
      subst hf35
      have hsing := updateFirstField35Values_withNumber_singleton
        (fun x => addMsgTypeValues x cm) hf
      constructor
      · intro hcond
        rcases hcond with h | h
        · exact absurd rfl h
        · exact absurd h hne
      · refine ⟨_, hsing, ?_, ?_⟩
        · intro v hv
          exact addMsgType_foldl_mem cm hv
        · intro v hv
          exact addMsgType_foldl_provenance hv
    · have hne35 := updateFirstField35Values_withNumber_ne fields1
        (fun x => addMsgTypeValues x cm) t ht
      rw [hf] at hne35
      exact ⟨fun _ => hne35, f, hne35, fun v hv => hv, fun v hv => Or.inl hv⟩

/-- The enum codes of the merged values of a shared tag form the union of
the two codes sets. -/
theorem codes_union (bf cf : FieldDef) (c : String) :
    c ∈ (bf.values ++ cf.values.filter
        (fun v => ¬ bf.values.any (fun w => w.enum = v.enum))).map (fun v => v.enum) ↔
      c ∈ bf.values.map (fun v => v.enum) ∨ c ∈ cf.values.map (fun v => v.enum) := by
  rw [List.map_append, List.mem_append]
  constructor
  · rintro (h | h)
    · exact Or.inl h
    · obtain ⟨v, hv, rfl⟩ := List.mem_map.1 h
      exact Or.inr (List.mem_map.2 ⟨v, (List.mem_filter.1 hv).1, rfl⟩)
  · rintro (h | h)
    · exact Or.inl h
    · obtain ⟨v, hv, rfl⟩ := List.mem_map.1 h
      by_cases hb : v.enum ∈ bf.values.map (fun w => w.enum)
      · exact Or.inl hb
      · refine Or.inr (List.mem_map.2 ⟨v, List.mem_filter.2 ⟨hv, ?_⟩, rfl⟩)
        have hall : ∀ w ∈ bf.values, ¬ w.enum = v.enum :=
          fun w hw hww => hb (List.mem_map.2 ⟨w, hw, hww⟩)
        simpa using hall


/-- The merged values of a shared tag keep the codes unique when both
sides had unique codes. -/
theorem codes_nodup {bf cf : FieldDef}
    (hb : (bf.values.map (fun v => v.enum)).Nodup)
    (hc : (cf.values.map (fun v => v.enum)).Nodup) :
    ((bf.values ++ cf.values.filter
        (fun v => ¬ bf.values.any (fun w => w.enum = v.enum))).map
      (fun v => v.enum)).Nodup := by
  rw [List.map_append]
  refine List.Nodup.append hb (hc.sublist ((List.filter_sublist _).map _)) ?_
  intro a hab haf
  obtain ⟨v, hvf, rfl⟩ := List.mem_map.1 haf
  obtain ⟨hvc, hpred⟩ := List.mem_filter.1 hvf
  obtain ⟨w, hw, hwe⟩ := List.mem_map.1 hab
  have hnp : ¬ (bf.values.any (fun x => x.enum = v.enum) = true) := by simpa using hpred
  exact hnp (List.any_eq_true.2 ⟨w, hw, by simpa using hwe⟩)

/-- Base of the C7 counterexample: tag 35 with enum code A. -/
def exC7base : FixDocument :=
  ⟨[], [.field ⟨"35", "MsgType", "STRING", [⟨"A", "a"⟩]⟩], none, none, none⟩

/-- Overlay of the C7 counterexample: tag 35 with enum code B and one new
message with msgtype Z. -/
def exC7custom : FixDocument :=
  ⟨[⟨"Nm", "Z", "app", []⟩], [.field ⟨"35", "MsgType", "STRING", [⟨"B", "b"⟩]⟩],
   none, none, none⟩

/-- The merged result of the C7 pair. -/
def exC7merged : FixDocument :=
  ⟨[⟨"Nm", "Z", "app", []⟩],
   [.field ⟨"35", "MsgType", "STRING", [⟨"A", "a"⟩, ⟨"B", "b"⟩, ⟨"Z", "NM"⟩]⟩],
   none, none, none⟩

/-- C7 (counterexample): tag 35 is present in both documents with codes
{A} and {B}, yet the merged enum set for tag 35 is {A, B, Z} -- the
message-merge phase appends the overlay message's msgtype Z, so the
result is NOT the union of B's and O's enum codes. -/
theorem C7_counterexample :
    merge_fix_xml exC7base exC7custom = some (exC7merged, [Diag.dupTag "35"]) ∧
    fieldsWithNumber exC7base.fields "35" = [⟨"35", "MsgType", "STRING", [⟨"A", "a"⟩]⟩] ∧
    fieldsWithNumber exC7custom.fields "35" = [⟨"35", "MsgType", "STRING", [⟨"B", "b"⟩]⟩] ∧
    fieldsWithNumber exC7merged.fields "35" =
      [⟨"35", "MsgType", "STRING", [⟨"A", "a"⟩, ⟨"B", "b"⟩, ⟨"Z", "NM"⟩]⟩] ∧
    "Z" ∈ ([⟨"A", "a"⟩, ⟨"B", "b"⟩, ⟨"Z", "NM"⟩] : List EnumValue).map (fun v => v.enum) ∧
    "Z" ∉ ([⟨"A", "a"⟩] : List EnumValue).map (fun v => v.enum) ∧
    "Z" ∉ ([⟨"B", "b"⟩] : List EnumValue).map (fun v => v.enum) :=
  ⟨rfl, by decide, by decide, by decide, by decide, by decide, by decide⟩

/-- C7 (amended): under unique tag numbers on both sides, (a) merging
never removes an enum value present in a base field, and (b) for every
tag defined in both documents, the merged enum-code set is exactly the
union of the two codes sets (with every code once, given per-field code
uniqueness) -- provided the tag is not the message-type tag 35 while the
overlay has messages; for tag 35 the message msgtypes are additionally
appended. -/
theorem C7_theorem {B O doc : FixDocument} {diags : List Diag}
    (hOn : (numbersOf O.fields).Nodup)
    (hm : merge_fix_xml B O = some (doc, diags)) :
    (∀ t bf, fieldsWithNumber B.fields t = [bf] →
      ∃ rf, fieldsWithNumber doc.fields t = [rf] ∧ ∀ v ∈ bf.values, v ∈ rf.values) ∧
    (∀ t bf cf, fieldsWithNumber B.fields t = [bf] →
      fieldsWithNumber O.fields t = [cf] → (t ≠ "35" ∨ O.messages = []) →
      (bf.values.map (fun v => v.enum)).Nodup →
      (cf.values.map (fun v => v.enum)).Nodup →
      ∃ rf, fieldsWithNumber doc.fields t = [rf] ∧
        (∀ c, c ∈ rf.values.map (fun v => v.enum) ↔
          c ∈ bf.values.map (fun v => v.enum) ∨ c ∈ cf.values.map (fun v => v.enum)) ∧
        (rf.values.map (fun v => v.enum)).Nodup) := by
  obtain ⟨fields2, msgs2, comps2, hmsg, hcomp, hdoc, hdiags⟩ := merge_fix_xml_some_inv hm
  have hdf : doc.fields = fields2 := by rw [hdoc]
  have hinv2 := (merge_messages_section_inv hmsg).2
  constructor
  · intro t bf hB
    have ht_orig : t ∈ numbersOf B.fields := by
      rw [mem_numbersOf_iff, hB]
      simp
    by_cases htO : t ∈ numbersOf O.fields
    · obtain ⟨cf, hcf⟩ := withNumber_singleton_of_nodup hOn htO
      have h1 : fieldsWithNumber (merge_fields B.fields O.fields) t =
          [{ bf with values := bf.values ++
              cf.values.filter (fun v => ¬ bf.values.any (fun w => w.enum = v.enum)) }] := by
        unfold merge_fields
        exact mergeFieldsGo_withNumber_singleton ht_orig hB hcf
      obtain ⟨-, rf, hrf, hmem, -⟩ := fields2_withNumber hinv2 h1
      exact ⟨rf, hdf ▸ hrf, fun v hv => hmem v (List.mem_append_left _ hv)⟩
    · have hno : ∀ cf' ∈ fieldEntries O.fields, cf'.number ≠ t := by
        intro cf' hcf' heq
        exact htO (List.mem_map.2 ⟨cf', hcf', heq⟩)
      have h1 : fieldsWithNumber (merge_fields B.fields O.fields) t = [bf] := by
        unfold merge_fields
        rw [mergeFieldsGo_withNumber_ne _ hno]
        exact hB
      obtain ⟨-, rf, hrf, hmem, -⟩ := fields2_withNumber hinv2 h1
      exact ⟨rf, hdf ▸ hrf, fun v hv => hmem v hv⟩
  · intro t bf cf hB hO hcond hbn hcn
    have ht_orig : t ∈ numbersOf B.fields := by
      rw [mem_numbersOf_iff, hB]
      simp
    have h1 : fieldsWithNumber (merge_fields B.fields O.fields) t =
        [{ bf with values := bf.values ++
            cf.values.filter (fun v => ¬ bf.values.any (fun w => w.enum = v.enum)) }] := by
      unfold merge_fields
      exact mergeFieldsGo_withNumber_singleton ht_orig hB hO
    have h2 := (fields2_withNumber hinv2 h1).1 hcond
    refine ⟨_, hdf ▸ h2, ?_, ?_⟩
    · intro c
      exact codes_union bf cf c
    · exact codes_nodup hbn hcn

/-- C7 witness: the amended theorem applied to the concrete C7 pair. -/
theorem C7_witness :
    (numbersOf exC7custom.fields).Nodup ∧
    ((∀ t bf, fieldsWithNumber exC7base.fields t = [bf] →
      ∃ rf, fieldsWithNumber exC7merged.fields t = [rf] ∧ ∀ v ∈ bf.values, v ∈ rf.values) ∧
    (∀ t bf cf, fieldsWithNumber exC7base.fields t = [bf] →
      fieldsWithNumber exC7custom.fields t = [cf] →
      (t ≠ "35" ∨ exC7custom.messages = []) →
      (bf.values.map (fun v => v.enum)).Nodup →
      (cf.values.map (fun v => v.enum)).Nodup →
      ∃ rf, fieldsWithNumber exC7merged.fields t = [rf] ∧
        (∀ c, c ∈ rf.values.map (fun v => v.enum) ↔
          c ∈ bf.values.map (fun v => v.enum) ∨ c ∈ cf.values.map (fun v => v.enum)) ∧
        (rf.values.map (fun v => v.enum)).Nodup)) :=
  ⟨by decide,
    @C7_theorem exC7base exC7custom exC7merged [Diag.dupTag "35"] (by decide) rfl⟩

/-! ## Claim C8 -/

theorem filterMap_eq_map_of_some {α β : Type} {f : α → Option β} {g : α → β}
    {l : List α} (h : ∀ a ∈ l, f a = some (g a)) : l.filterMap f = l.map g := by
  induction l with
  | nil => rfl
  | cons a rest ih =>
      rw [List.filterMap_cons, h a (List.mem_cons_self a rest), List.map_cons,
        ih (fun a' ha' => h a' (List.mem_cons_of_mem _ ha'))]

theorem withNumber_self_of_nodup {fs : List FieldsEntry}
    (h : (numbersOf fs).Nodup) {cf : FieldDef} (hcf : cf ∈ fieldEntries fs) :
    fieldsWithNumber fs cf.number = [cf] := by
  have ht : cf.number ∈ numbersOf fs := List.mem_map.2 ⟨cf, hcf, rfl⟩
  obtain ⟨f, hf⟩ := withNumber_singleton_of_nodup h ht
  have hin : cf ∈ fieldsWithNumber fs cf.number := List.mem_filter.2 ⟨hcf, by simp⟩
  rw [hf] at hin
  rw [hf, List.mem_singleton.1 hin]

theorem entries_inj_of_nodup {fs : List FieldsEntry}
    (h : (numbersOf fs).Nodup) {f g : FieldDef}
    (hf : f ∈ fieldEntries fs) (hg : g ∈ fieldEntries fs)
    (hfg : f.number = g.number) : f = g := by
  have h1 := withNumber_self_of_nodup h hf
  have hin : g ∈ fieldsWithNumber fs f.number :=
    List.mem_filter.2 ⟨hg, by simp [hfg]⟩
  rw [h1] at hin
  exact (List.mem_singleton.1 hin).symm

theorem dupTagDiags_eq_nil_of_nodup {fs : List FieldsEntry}
    (h : (numbersOf fs).Nodup) : dupTagDiags fs = [] := by
  unfold dupTagDiags
  rw [List.filterMap_eq_nil_iff]
  intro t _
  have hsub : ((numbersOf fs).filter (· ≠ "")).Nodup :=
    h.sublist (List.filter_sublist _)
  have hcount : ((numbersOf fs).filter (· ≠ "")).count t ≤ 1 :=
    List.nodup_iff_count_le_one.1 hsub t
  rw [if_neg (by omega)]

theorem comparisonDiags_self_of_nodup {fs : List FieldsEntry}
    (h : (numbersOf fs).Nodup) :
    comparisonDiags fs fs = (fieldEntries fs).map (fun f => Diag.dupTag f.number) := by
  unfold comparisonDiags
  apply filterMap_eq_map_of_some
  intro cf hcf
  unfold compareOne
  rw [withNumber_self_of_nodup h hcf]
  show (if cf.name ≠ cf.name ∨ cf.type ≠ cf.type then some (Diag.conflict cf.number)
    else some (Diag.dupTag cf.number)) = some (Diag.dupTag cf.number)
  rw [if_neg (by simp)]

theorem merge_fields_self_of_nodup {fs : List FieldsEntry}
    (h : (numbersOf fs).Nodup) : merge_fields fs fs = fs := by
  unfold merge_fields
  apply mergeFieldsGo_id
  intro cf hcf
  unfold mergeOneField
  have hmem : cf.number ∈ numbersOf fs := List.mem_map.2 ⟨cf, hcf, rfl⟩
  rw [if_pos hmem]
  apply updateLastFieldValues_id
  intro f hf hfnum
  have hfeq : f = cf := entries_inj_of_nodup h hf hcf hfnum
  subst hfeq
  have hfil : f.values.filter
      (fun v => ¬ f.values.any (fun w => w.enum = v.enum)) = [] := by
    rw [List.filter_eq_nil_iff]
    intro v hv
    simp only [decide_eq_true_eq, Bool.not_eq_true]
    intro hnot
    have htrue : f.values.any (fun w => decide (w.enum = v.enum)) = true :=
      List.any_eq_true.2 ⟨v, hv, by simp⟩
    rw [htrue] at hnot
    exact Bool.noConfusion hnot
  rw [hfil, List.append_nil]

theorem findField35_of_nodup_entry {fs : List FieldsEntry}
    (h : (numbersOf fs).Nodup) {f : FieldDef}
    (hf : f ∈ fieldEntries fs) (h35 : f.number = "35") :
    findField35 fs = some f := by
  apply findField35_eq_of_withNumber_singleton
  rw [← h35]
  exact withNumber_self_of_nodup h hf

/-- The self-merge document of the C8 counterexample: one message with
msgtype D, field 35 with NO enum values. -/
def exC8 : FixDocument :=
  ⟨[⟨"Order", "D", "app", []⟩], [.field ⟨"35", "MsgType", "STRING", []⟩],
   some [], some [], some []⟩

/-- C8 (counterexample): merging a document with itself is NOT the
identity -- the MsgType maintenance loop runs over the document's own
messages and appends a new enum value (D, ORDER) under tag 35 because the
code D was not yet listed there. -/
theorem C8_counterexample :
    ∃ doc diags, merge_fix_xml exC8 exC8 = some (doc, diags) ∧
      doc.fields ≠ exC8.fields ∧
      findField35 exC8.fields = some ⟨"35", "MsgType", "STRING", []⟩ ∧
      findField35 doc.fields = some ⟨"35", "MsgType", "STRING", [⟨"D", "ORDER"⟩]⟩ := by
  refine ⟨⟨[⟨"Order", "D", "app", []⟩],
    [.field ⟨"35", "MsgType", "STRING", [⟨"D", "ORDER"⟩]⟩], some [], some [], some []⟩,
    [Diag.dupTag "35"], rfl, by decide, by decide, by decide⟩

/-- C8 (amended): merging a document with itself IS the identity --
returning the document unchanged and reporting no conflict (only a benign
duplicate notice per field) -- provided tag numbers are unique and every
message's msgtype already appears among the enum codes of the field
numbered 35; otherwise that field gains the missing msgtype values, as
the counterexample shows. -/
theorem C8_theorem {B : FixDocument}
    (hn : (numbersOf B.fields).Nodup)
    (h35 : ∀ m ∈ B.messages, ∃ f, findField35 B.fields = some f ∧
      ∃ v ∈ f.values, v.enum = m.msgtype) :
    merge_fix_xml B B =
      some (B, (fieldEntries B.fields).map (fun f => Diag.dupTag f.number)) ∧
    (∀ t, ((fieldEntries B.fields).map (fun f => Diag.dupTag f.number)).count
      (Diag.conflict t) = 0) := by
  have hmf : merge_fields B.fields B.fields = B.fields := merge_fields_self_of_nodup hn
  have hmsgs : B.messages.filter
      (fun m => m.name ≠ "" ∧ m.name ∉ B.messages.map (·.name)) = [] := by
    rw [List.filter_eq_nil_iff]
    intro m hm
    simp only [decide_eq_true_eq, not_and, Bool.not_eq_true]
    intro _
    simp only [not_not]
    exact List.mem_map.2 ⟨m, hm, rfl⟩
  have hms : merge_messages_section B.fields B.messages B.messages =
      some (B.fields, B.messages) := by
    unfold merge_messages_section
    cases hBm : B.messages with
    | nil => simp
    | cons m rest =>
        obtain ⟨f, hfind, hv⟩ := h35 m (by rw [hBm]; exact List.mem_cons_self m rest)
        rw [hfind]
        have hid : updateFirstField35Values B.fields
            (fun x => addMsgTypeValues x (m :: rest)) = B.fields := by
          apply updateFirstField35Values_id
          intro f' hf' hf35'
          have hff' : findField35 B.fields = some f' :=
            findField35_of_nodup_entry hn hf' hf35'
          rw [hfind] at hff'
          injection hff' with hfeq
          subst hfeq
          apply addMsgType_foldl_id
          intro m' hm'
          obtain ⟨g, hgfind, w, hw, hwe⟩ := h35 m' (by rw [hBm]; exact hm')
          rw [hfind] at hgfind
          injection hgfind with hgeq
          subst hgeq
          exact ⟨w, hw, hwe⟩
        rw [hid]
        rw [hBm] at hmsgs
        rw [hmsgs, List.append_nil]
  have hmc : merge_components_section B.components B.components =
      some B.components := by
    unfold merge_components_section
    cases B.components with
    | none => rfl
    | some bs =>
        have hfil : bs.filter (fun c => c.name ≠ "" ∧ c.name ∉ bs.map (·.name)) = [] := by
          rw [List.filter_eq_nil_iff]
          intro c hc
          simp only [decide_eq_true_eq, not_and, Bool.not_eq_true]
          intro _
          simp only [not_not]
          exact List.mem_map.2 ⟨c, hc, rfl⟩
        simp only [hfil, List.append_nil]
  constructor
  · unfold merge_fix_xml
    rw [hmf]
    simp only [hms, hmc]
    rw [dupTagDiags_eq_nil_of_nodup hn, comparisonDiags_self_of_nodup hn,
      List.nil_append]
  · intro t
    rw [List.count_eq_zero]
    intro hmem
    obtain ⟨f, _, heq⟩ := List.mem_map.1 hmem
    exact Diag.noConfusion heq

/-- The idempotent document of the C8 witness: its field 35 already lists
the msgtype of its only message. -/
def exC8ok : FixDocument :=
  ⟨[⟨"Order", "D", "app", []⟩],
   [.field ⟨"35", "MsgType", "STRING", [⟨"D", "ORDER"⟩]⟩], some [], some [], some []⟩

/-- C8 witness: the amended theorem applied to a concrete document whose
field 35 already lists every msgtype: the self-merge returns it unchanged
with one duplicate notice and zero conflicts. -/
theorem C8_witness :
    (numbersOf exC8ok.fields).Nodup ∧
    (∀ m ∈ exC8ok.messages, ∃ f, findField35 exC8ok.fields = some f ∧
      ∃ v ∈ f.values, v.enum = m.msgtype) ∧
    (merge_fix_xml exC8ok exC8ok =
      some (exC8ok, (fieldEntries exC8ok.fields).map (fun f => Diag.dupTag f.number)) ∧
    (∀ t, ((fieldEntries exC8ok.fields).map (fun f => Diag.dupTag f.number)).count
      (Diag.conflict t) = 0)) := by
  have h35 : ∀ m ∈ exC8ok.messages, ∃ f, findField35 exC8ok.fields = some f ∧
      ∃ v ∈ f.values, v.enum = m.msgtype := by
    intro m hm
    have hm' := List.mem_singleton.1 hm
    subst hm'
    exact ⟨⟨"35", "MsgType", "STRING", [⟨"D", "ORDER"⟩]⟩, by decide,
      ⟨"D", "ORDER"⟩, by decide, by decide⟩
  exact ⟨by decide, h35, C8_theorem (by decide) h35⟩

/-! ## Claim C6 -/

/-- The invariant of the builder's `fields_map`: unique keys, and every
stored definition carries its key as its element name. -/
def FieldsMapInv (fm : List (String × FieldInfo)) : Prop :=
  (fm.map Prod.fst).Nodup ∧ ∀ p ∈ fm, p.2.element_name = p.1

theorem lookup_none_forall {fm : List (String × FieldInfo)} {k : String}
    (h : fm.lookup k = none) : ∀ p ∈ fm, p.1 ≠ k := by
  induction fm with
  | nil => intro p hp; exact absurd hp (List.not_mem_nil p)
  | cons q rest ih =>
      intro p hp
      cases hbeq : (k == q.1) with
      | true =>
          rw [List.lookup_cons, hbeq] at h
          exact absurd h (by simp)
      | false =>
          rw [List.lookup_cons, hbeq] at h
          rcases List.mem_cons.1 hp with rfl | hrest
          · exact fun he => (ne_of_beq_false hbeq) he.symm
          · exact ih h p hrest

theorem processRow_fields_map (st : BuildState) (row : CsvRow) :
    (processRow st row).fields_map = st.fields_map ∨
    ∃ k fi, st.fields_map.lookup k = none ∧ fi.element_name = k ∧
      (processRow st row).fields_map = st.fields_map ++ [(k, fi)] := by
  cases hl : st.fields_map.lookup (trimString row.element_name) with
  | some existing =>
      refine Or.inl ?_
      simp only [processRow, hl]
      split <;> rfl
  | none =>
      refine Or.inr ⟨trimString row.element_name,
        ⟨trimString row.element_type, trimString row.tag_number,
          trimString row.element_name,
          upperString (trimString row.data_type),
          (parse_enum_values (upperString (removeSpaces row.enum_values))
            (trimString row.tag_number)).1⟩, hl, rfl, ?_⟩
      simp only [processRow, hl]

theorem processRow_inv {st : BuildState} (row : CsvRow)
    (h : FieldsMapInv st.fields_map) : FieldsMapInv (processRow st row).fields_map := by
  rcases processRow_fields_map st row with heq | ⟨k, fi, hlk, hname, heq⟩
  · rw [heq]; exact h
  · rw [heq]
    constructor
    · rw [List.map_append]
      rw [List.nodup_append]
      refine ⟨h.1, by simp, ?_⟩
      intro a ha hb
      have hak : a = k := by simpa using hb
      subst hak
      obtain ⟨p, hp, hpk⟩ := List.mem_map.1 ha
      exact lookup_none_forall hlk p hp hpk
    · intro p hp
      rcases List.mem_append.1 hp with hold | hnew
      · exact h.2 p hold
      · rw [List.mem_singleton.1 hnew]
        exact hname

theorem foldl_processRow_inv (rows : List CsvRow) (st : BuildState)
    (h : FieldsMapInv st.fields_map) :
    FieldsMapInv (rows.foldl processRow st).fields_map := by
  induction rows generalizing st with
  | nil => exact h
  | cons r rest ih => exact ih _ (processRow_inv r h)

theorem buildFieldsSection_names_sub {fm : List (String × FieldInfo)}
    (hval : ∀ p ∈ fm, p.2.element_name = p.1) {x : String}
    (hx : x ∈ (buildFieldsSection fm).map entryName) : x ∈ fm.map Prod.fst := by
  obtain ⟨e, he, rfl⟩ := List.mem_map.1 hx
  obtain ⟨p, hp, hpe⟩ := List.mem_filterMap.1 he
  refine List.mem_map.2 ⟨p, hp, ?_⟩
  by_cases h1 : p.2.element_type = "field"
  · rw [if_pos h1] at hpe
    injection hpe with hpe'
    rw [← hpe']
    exact (hval p hp).symm
  · rw [if_neg h1] at hpe
    by_cases h2 : p.2.element_type = "component"
    · rw [if_pos h2] at hpe
      injection hpe with hpe'
      rw [← hpe']
      exact (hval p hp).symm
    · rw [if_neg h2] at hpe
      exact absurd hpe (by simp)

theorem buildFieldsSection_names_nodup {fm : List (String × FieldInfo)}
    (h : FieldsMapInv fm) : ((buildFieldsSection fm).map entryName).Nodup := by
  obtain ⟨hkeys, hval⟩ := h
  induction fm with
  | nil => simp [buildFieldsSection]
  | cons p rest ih =>
      rw [List.map_cons, List.nodup_cons] at hkeys
      have hvalr : ∀ q ∈ rest, q.2.element_name = q.1 :=
        fun q hq => hval q (List.mem_cons_of_mem _ hq)
      have ihr := ih hkeys.2 hvalr
      unfold buildFieldsSection
      rw [List.filterMap_cons]
      cases hfp : (if p.2.element_type = "field" then
          some (FieldsEntry.field ⟨p.2.tag_number, p.2.element_name, p.2.data_type, p.2.enums⟩)
        else if p.2.element_type = "component" then
          some (FieldsEntry.comp p.2.element_name p.2.data_type)
        else none) with
      | none => exact ihr
      | some e =>
          rw [List.map_cons, List.nodup_cons]
          refine ⟨?_, ihr⟩
          intro hmem
          have hxk : entryName e ∈ rest.map Prod.fst :=
            buildFieldsSection_names_sub hvalr hmem
          have hep : entryName e = p.1 := by
            by_cases h1 : p.2.element_type = "field"
            · rw [if_pos h1] at hfp
              injection hfp with hfp'
              rw [← hfp']
              exact hval p (List.mem_cons_self _ _)
            · rw [if_neg h1] at hfp
              by_cases h2 : p.2.element_type = "component"
              · rw [if_pos h2] at hfp
                injection hfp with hfp'
                rw [← hfp']
                exact hval p (List.mem_cons_self _ _)
              · rw [if_neg h2] at hfp
                exact absurd hfp (by simp)
          rw [hep] at hxk
          exact hkeys.1 hxk

theorem merge_numbersOf_nodup {B O doc : FixDocument} {diags : List Diag}
    (hBn : (numbersOf B.fields).Nodup) (hOn : (numbersOf O.fields).Nodup)
    (hm : merge_fix_xml B O = some (doc, diags)) :
    (numbersOf doc.fields).Nodup := by
  obtain ⟨fields2, msgs2, comps2, hmsg, hcomp, hdoc, hdiags⟩ := merge_fix_xml_some_inv hm
  have hdf : doc.fields = fields2 := by rw [hdoc]
  have h1 : (numbersOf (merge_fields B.fields O.fields)).Nodup := by
    unfold merge_fields
    rw [mergeFieldsGo_numbersOf]
    rw [List.nodup_append]
    refine ⟨hBn, ?_, ?_⟩
    · have hsub : List.Sublist
          (((fieldEntries O.fields).filter
            (fun c => c.number ∉ numbersOf B.fields)).map (fun f => f.number))
          ((fieldEntries O.fields).map (fun f => f.number)) :=
        (List.filter_sublist _).map _
      exact hOn.sublist hsub
    · intro a ha hb
      obtain ⟨cf, hcf, rfl⟩ := List.mem_map.1 hb
      have hpred := (List.mem_filter.1 hcf).2
      simp only [decide_eq_true_eq] at hpred
      exact hpred ha
  rw [hdf]
  rcases (merge_messages_section_inv hmsg).2 with ⟨_, rfl⟩ | ⟨_, f35, _, rfl⟩
  · exact h1
  · rw [updateFirstField35Values_numbersOf]
    exact h1

/-- Rows of the C6 counterexample: the same tag number 1 under two
different element names A and B. -/
def exC6rows : List CsvRow :=
  [⟨"D", "Ord", "1", "A", "field", "Y", "STRING", ""⟩,
   ⟨"D", "Ord", "1", "B", "field", "Y", "STRING", ""⟩]

/-- Base of the merger half of the C6 counterexample. -/
def exC6base : FixDocument :=
  ⟨[], [.field ⟨"1", "A", "STRING", []⟩], none, none, none⟩

/-- Overlay with an internal duplicate of tag 200 under two names. -/
def exC6custom : FixDocument :=
  ⟨[], [.field ⟨"200", "X", "STRING", []⟩, .field ⟨"200", "Y", "INT", []⟩],
   none, none, none⟩

/-- C6 (counterexample): the Definition Builder deduplicates by element
NAME, not by tag, so two rows with the same tag under different names
produce two field entries numbered 1 with different names and no
diagnostic; and the Dictionary Merger appends both fields of an
overlay-internal duplicate tag absent from the base, so its output also
carries a duplicate tag. -/
theorem C6_counterexample :
    (csv_to_fix_xml exC6rows).1.fields =
      [.field ⟨"1", "A", "STRING", []⟩, .field ⟨"1", "B", "STRING", []⟩] ∧
    (csv_to_fix_xml exC6rows).2 = [] ∧
    ¬ (numbersOf (csv_to_fix_xml exC6rows).1.fields).Nodup ∧
    (∃ doc diags, merge_fix_xml exC6base exC6custom = some (doc, diags) ∧
      ¬ (numbersOf doc.fields).Nodup) := by
  refine ⟨rfl, rfl, by decide, ?_⟩
  refine ⟨⟨[], [.field ⟨"1", "A", "STRING", []⟩, .field ⟨"200", "X", "STRING", []⟩,
      .field ⟨"200", "Y", "INT", []⟩], none, none, none⟩,
    [Diag.dupTagInCustom "200" 2], rfl, by decide⟩

/-- C6 (amended): the Definition Builder guarantees that field NAMES are
unique in its output (first occurrence per element name wins) -- but not
tag numbers; and the Dictionary Merger preserves tag-number uniqueness
when both inputs have unique tag numbers. -/
theorem C6_theorem :
    (∀ rows : List CsvRow, (((csv_to_fix_xml rows).1.fields).map entryName).Nodup) ∧
    (∀ (B O doc : FixDocument) (diags : List Diag),
      (numbersOf B.fields).Nodup → (numbersOf O.fields).Nodup →
      merge_fix_xml B O = some (doc, diags) → (numbersOf doc.fields).Nodup) := by
  constructor
  · intro rows
    have hinv : FieldsMapInv ((rows.foldl processRow ⟨[], [], [], ∅⟩).fields_map) :=
      foldl_processRow_inv rows _ ⟨List.nodup_nil, fun p hp => absurd hp (List.not_mem_nil p)⟩
    exact buildFieldsSection_names_nodup hinv
  · intro B O doc diags hBn hOn hm
    exact merge_numbersOf_nodup hBn hOn hm

/-- C6 witness: the amended theorem applied to the concrete builder rows
and to a concrete duplicate-free pair of documents. -/
theorem C6_witness :
    (((csv_to_fix_xml exC6rows).1.fields).map entryName).Nodup ∧
    ((numbersOf exC6base.fields).Nodup ∧ (numbersOf exC1custom.fields).Nodup ∧
      (numbersOf
        (({ messages := [], fields := [.field ⟨"1", "A", "STRING", []⟩,
            .field ⟨"100", "Bar", "INT", [⟨"X", "x"⟩]⟩], components := none,
            header := none, trailer := none } : FixDocument)).fields).Nodup) :=
  ⟨C6_theorem.1 exC6rows,
    by decide, by decide,
    C6_theorem.2 exC6base exC1custom
      ⟨[], [.field ⟨"1", "A", "STRING", []⟩, .field ⟨"100", "Bar", "INT", [⟨"X", "x"⟩]⟩],
        none, none, none⟩
      [] (by decide) (by decide) rfl⟩

/-! ## Claim C10 -/

/-- C10: every document the Definition Builder produces has NO top-level
components section (component declarations go into the fields section
instead), and consequently using such a document as the merge overlay
never changes the base's components section and never adds any
`<component>` child to the base's fields section (the field-merge loop
iterates `findall("field")` only). -/
theorem C10_theorem (rows : List CsvRow) :
    (csv_to_fix_xml rows).1.components = none ∧
    (∀ (B doc : FixDocument) (diags : List Diag),
      merge_fix_xml B (csv_to_fix_xml rows).1 = some (doc, diags) →
      doc.components = B.components ∧
      compEntries doc.fields = compEntries B.fields) := by
  refine ⟨rfl, ?_⟩
  intro B doc diags hm
  obtain ⟨fields2, msgs2, comps2, hmsg, hcomp, hdoc, hdiags⟩ := merge_fix_xml_some_inv hm
  have hnone : (csv_to_fix_xml rows).1.components = none := rfl
  constructor
  · rcases merge_components_section_inv hcomp with ⟨_, rfl⟩ | ⟨cs, bs, hcs, _, _⟩
    · rw [hdoc]
    · rw [hnone] at hcs
      exact absurd hcs (by simp)
  · have h1 : compEntries (merge_fields B.fields (csv_to_fix_xml rows).1.fields) =
        compEntries B.fields := by
      unfold merge_fields
      exact mergeFieldsGo_compEntries _ _ _
    have hdf : doc.fields = fields2 := by rw [hdoc]
    rw [hdf]
    rcases (merge_messages_section_inv hmsg).2 with ⟨_, rfl⟩ | ⟨_, f35, _, rfl⟩
    · exact h1
    · rw [updateFirstField35Values_compEntries]
      exact h1

/-- Rows of the C10 witness: one component declaration and one field. -/
def exC10rows : List CsvRow :=
  [⟨"D", "Ord", "0", "Parties", "component", "N", "X", ""⟩,
   ⟨"D", "Ord", "11", "ClOrdID", "field", "Y", "STRING", ""⟩]

/-- Base of the C10 witness: field 35, one component child of the fields
section, and a components section. -/
def exC10base : FixDocument :=
  ⟨[], [.field ⟨"35", "MsgType", "STRING", []⟩, .comp "Old" "Y"],
   some [], some [], some []⟩

/-- The merged result of the C10 witness. -/
def exC10merged : FixDocument :=
  ⟨[⟨"Ord", "D", "app",
      [MemberE.mk "component" "Parties" "N" [], MemberE.mk "field" "ClOrdID" "Y" []]⟩],
   [.field ⟨"35", "MsgType", "STRING", [⟨"D", "ORD"⟩]⟩, .comp "Old" "Y",
    .field ⟨"11", "ClOrdID", "STRING", []⟩],
   some [], some [], some []⟩

/-- C10 witness: the theorem applied to the concrete builder output
merged into a concrete base. -/
theorem C10_witness :
    (csv_to_fix_xml exC10rows).1.components = none ∧
    (exC10merged.components = exC10base.components ∧
      compEntries exC10merged.fields = compEntries exC10base.fields) :=
  ⟨(C10_theorem exC10rows).1,
   (C10_theorem exC10rows).2 exC10base exC10merged [] rfl⟩

/-! ## Closure lemmas for the pruner -/

/-- The state change when an unvisited mapped component is expanded
(lines 45-51): mark visited, add its direct field names to the used-field
set and its direct component names to the used-components set. -/
def expandState (st : CState) (n : String) (k : FixComponent) : CState :=
  { visited := insert n st.visited
    usedFields := st.usedFields ∪ (directFieldNames k.members).toFinset
    usedComps := st.usedComps ∪ (directCompNames k.members).toFinset }

theorem collectAll_nil (cmap : List FixComponent) (st : CState) :
    collectAll cmap [] st = st := by
  simp [collectAll, collect_nested_components]

theorem collectAll_cons_pos {cmap : List FixComponent} {n : String}
    {st : CState} (rest : List String)
    (hg : (lookupComp cmap n).isSome ∧ n ∉ st.visited) :
    collectAll cmap (n :: rest) st =
      collectAll cmap rest (collectAll cmap
        (directCompNames ((lookupComp cmap n).get hg.1).members)
        (expandState st n ((lookupComp cmap n).get hg.1))) := by
  simp only [collectAll, collect_nested_components, expandState]
  rw [dif_pos hg]

theorem collectAll_cons_neg {cmap : List FixComponent} {n : String}
    {st : CState} (rest : List String)
    (hg : ¬ ((lookupComp cmap n).isSome ∧ n ∉ st.visited)) :
    collectAll cmap (n :: rest) st = collectAll cmap rest st := by
  simp only [collectAll, collect_nested_components]
  rw [dif_neg hg]

theorem collectAll_visited_mono (cmap : List FixComponent)
    (names : List String) (st : CState) :
    st.visited ⊆ (collectAll cmap names st).visited :=
  (collect_nested_components cmap names st).property

theorem collectAll_used_mono (cmap : List FixComponent)
    (names : List String) (st : CState) :
    st.usedComps ⊆ (collectAll cmap names st).usedComps ∧
    st.usedFields ⊆ (collectAll cmap names st).usedFields := by
  induction names, st using collect_nested_components.induct cmap with
  | case1 st => rw [collectAll_nil]; exact ⟨Finset.Subset.refl _, Finset.Subset.refl _⟩
  | case2 n rest st hg k st1 r1 ih1 ih2 ih3 ih4 ih5 =>
      rw [collectAll_cons_pos rest hg]
      constructor
      · intro x hx
        exact ih5.1 (ih2.1 (Finset.mem_union_left _ hx))
      · intro x hx
        exact ih5.2 (ih2.2 (Finset.mem_union_left _ hx))
  | case3 n rest st hg ih =>
      rw [collectAll_cons_neg rest hg]
      exact ih

theorem collectAll_names_visited (cmap : List FixComponent)
    (names : List String) (st : CState) :
    ∀ n ∈ names, (lookupComp cmap n).isSome →
      n ∈ (collectAll cmap names st).visited := by
  induction names, st using collect_nested_components.induct cmap with
  | case1 st =>
      intro n hn
      exact absurd hn (List.not_mem_nil n)
  | case2 n0 rest st hg k st1 r1 ih1 ih2 ih3 ih4 ih5 =>
      intro n hn hsome
      rw [collectAll_cons_pos rest hg]
      rcases List.mem_cons.1 hn with rfl | hrest
      · apply collectAll_visited_mono
        apply collectAll_visited_mono
        exact Finset.mem_insert_self n st.visited
      · exact ih5 n hrest hsome
  | case3 n0 rest st hg ih =>
      intro n hn hsome
      rw [collectAll_cons_neg rest hg]
      rcases List.mem_cons.1 hn with rfl | hrest
      · rcases not_and_or.1 hg with hnone | hvis
        · exact absurd hsome hnone
        · rw [not_not] at hvis
          exact collectAll_visited_mono cmap rest st hvis
      · exact ih n hrest hsome

theorem collectAll_visited_closed (cmap : List FixComponent)
    (names : List String) (st : CState) :
    ∀ x ∈ (collectAll cmap names st).visited, x ∈ st.visited ∨
      ∃ k, lookupComp cmap x = some k ∧
        (∀ d ∈ directCompNames k.members, d ∈ (collectAll cmap names st).usedComps) ∧
        (∀ y ∈ directFieldNames k.members, y ∈ (collectAll cmap names st).usedFields) ∧
        (∀ d ∈ directCompNames k.members, (lookupComp cmap d).isSome →
          d ∈ (collectAll cmap names st).visited) := by
  induction names, st using collect_nested_components.induct cmap with
  | case1 st =>
      intro x hx
      rw [collectAll_nil] at hx
      exact Or.inl hx
  | case2 n rest st hg k0 st1 r1 ih1 ih2 ih3 ih4 ih5 =>
      intro x hx
      rw [collectAll_cons_pos rest hg] at hx ⊢
      rcases ih5 x hx with hr1 | hdone
      · -- x was already visited after the subcomponent traversal
        rcases ih2 x hr1 with hst1 | ⟨k, hk, hc, hf, hv⟩
        · -- x was visited before that traversal: x = n or x in st.visited
          rcases Finset.mem_insert.1 hst1 with rfl | hold
          · -- x = n: the expanded component itself
            refine Or.inr ⟨(lookupComp cmap x).get hg.1, Option.some_get hg.1 |>.symm,
              ?_, ?_, ?_⟩
            · intro d hd
              apply (collectAll_used_mono cmap rest _).1
              apply (collectAll_used_mono cmap _ _).1
              exact Finset.mem_union_right _ (List.mem_toFinset.2 hd)
            · intro y hy
              apply (collectAll_used_mono cmap rest _).2
              apply (collectAll_used_mono cmap _ _).2
              exact Finset.mem_union_right _ (List.mem_toFinset.2 hy)
            · intro d hd hsome
              apply collectAll_visited_mono
              exact collectAll_names_visited cmap _ _ d hd hsome
          · exact Or.inl hold
        · -- x was expanded during the subcomponent traversal
          refine Or.inr ⟨k, hk, ?_, ?_, ?_⟩
          · intro d hd
            exact (collectAll_used_mono cmap rest _).1 (hc d hd)
          · intro y hy
            exact (collectAll_used_mono cmap rest _).2 (hf y hy)
          · intro d hd hsome
            exact collectAll_visited_mono cmap rest _ (hv d hd hsome)
      · -- x was expanded during the processing of the remaining names
        exact Or.inr hdone
  | case3 n rest st hg ih =>
      intro x hx
      rw [collectAll_cons_neg rest hg] at hx ⊢
      exact ih x hx

theorem collectAll_usedComps_sound (cmap : List FixComponent)
    (P : String → Prop)
    (hP : ∀ c k d, P c → lookupComp cmap c = some k →
      d ∈ directCompNames k.members → P d) :
    ∀ (names : List String) (st : CState),
      (∀ n ∈ names, P n) → (∀ x ∈ st.usedComps, P x) →
      ∀ x ∈ (collectAll cmap names st).usedComps, P x := by
  intro names st
  induction names, st using collect_nested_components.induct cmap with
  | case1 st =>
      intro _ hst x hx
      rw [collectAll_nil] at hx
      exact hst x hx
  | case2 n rest st hg k0 st1 r1 ih1 ih2 ih3 ih4 ih5 =>
      intro hnames hst x hx
      rw [collectAll_cons_pos rest hg] at hx
      have hPn : P n := hnames n (List.mem_cons_self n rest)
      have hPsubs : ∀ d ∈ directCompNames ((lookupComp cmap n).get hg.1).members, P d :=
        fun d hd => hP n _ d hPn (Option.some_get hg.1).symm hd
      have hst1 : ∀ x ∈ (expandState st n ((lookupComp cmap n).get hg.1)).usedComps, P x := by
        intro y hy
        rcases Finset.mem_union.1 hy with hl | hr
        · exact hst y hl
        · exact hPsubs y (List.mem_toFinset.1 hr)
      have hmid := ih2 hPsubs hst1
      exact ih5 (fun n' hn' => hnames n' (List.mem_cons_of_mem _ hn')) hmid x hx
  | case3 n rest st hg ih =>
      intro hnames hst x hx
      rw [collectAll_cons_neg rest hg] at hx
      exact ih (fun n' hn' => hnames n' (List.mem_cons_of_mem _ hn')) hst x hx

theorem collectAll_usedFields_sound (cmap : List FixComponent)
    (P : String → Prop) (Q : String → Prop)
    (hP : ∀ c k d, P c → lookupComp cmap c = some k →
      d ∈ directCompNames k.members → P d)
    (hQ : ∀ c k y, P c → lookupComp cmap c = some k →
      y ∈ directFieldNames k.members → Q y) :
    ∀ (names : List String) (st : CState),
      (∀ n ∈ names, P n) → (∀ y ∈ st.usedFields, Q y) →
      ∀ y ∈ (collectAll cmap names st).usedFields, Q y := by
  intro names st
  induction names, st using collect_nested_components.induct cmap with
  | case1 st =>
      intro _ hst y hy
      rw [collectAll_nil] at hy
      exact hst y hy
  | case2 n rest st hg k0 st1 r1 ih1 ih2 ih3 ih4 ih5 =>
      intro hnames hst y hy
      rw [collectAll_cons_pos rest hg] at hy
      have hPn : P n := hnames n (List.mem_cons_self n rest)
      have hPsubs : ∀ d ∈ directCompNames ((lookupComp cmap n).get hg.1).members, P d :=
        fun d hd => hP n _ d hPn (Option.some_get hg.1).symm hd
      have hst1 : ∀ y ∈ (expandState st n ((lookupComp cmap n).get hg.1)).usedFields, Q y := by
        intro z hz
        rcases Finset.mem_union.1 hz with hl | hr
        · exact hst z hl
        · exact hQ n _ z hPn (Option.some_get hg.1).symm (List.mem_toFinset.1 hr)
      have hmid := ih2 hPsubs hst1
      exact ih5 (fun n' hn' => hnames n' (List.mem_cons_of_mem _ hn')) hmid y hy
  | case3 n rest st hg ih =>
      intro hnames hst y hy
      rw [collectAll_cons_neg rest hg] at hy
      exact ih (fun n' hn' => hnames n' (List.mem_cons_of_mem _ hn')) hst y hy

theorem firstOccurrencesAux_mem (l : List String) :
    ∀ (seen : List String) (x : String),
      x ∈ firstOccurrencesAux seen l ↔ x ∈ l ∧ x ∉ seen := by
  induction l with
  | nil => intro seen x; simp [firstOccurrencesAux]
  | cons t rest ih =>
      intro seen x
      unfold firstOccurrencesAux
      by_cases ht : t ∈ seen
      · rw [if_pos ht, ih]
        constructor
        · rintro ⟨hx, hs⟩
          exact ⟨List.mem_cons_of_mem _ hx, hs⟩
        · rintro ⟨hx, hs⟩
          rcases List.mem_cons.1 hx with rfl | hx'
          · exact absurd ht hs
          · exact ⟨hx', hs⟩
      · rw [if_neg ht]
        constructor
        · intro hx
          rcases List.mem_cons.1 hx with rfl | hx'
          · exact ⟨List.mem_cons_self _ _, ht⟩
          · obtain ⟨h1, h2⟩ := (ih (t :: seen) x).1 hx'
            exact ⟨List.mem_cons_of_mem _ h1,
              fun hs => h2 (List.mem_cons_of_mem _ hs)⟩
        · rintro ⟨hx, hs⟩
          rcases List.mem_cons.1 hx with rfl | hx'
          · exact List.mem_cons_self _ _
          · by_cases hxt : x = t
            · subst hxt
              exact List.mem_cons_self _ _
            · refine List.mem_cons_of_mem _ ((ih (t :: seen) x).2 ⟨hx', ?_⟩)
              intro hmem
              rcases List.mem_cons.1 hmem with h | h
              · exact hxt h
              · exact hs h

theorem firstOccurrences_mem (l : List String) (x : String) :
    x ∈ firstOccurrences l ↔ x ∈ l := by
  rw [firstOccurrences, firstOccurrencesAux_mem]
  simp

theorem seedState_visited (kept : List FixMessage) :
    (seedState kept).visited = ∅ := rfl

theorem mem_seedCompList_iff (kept : List FixMessage) (x : String) :
    x ∈ seedCompList kept ↔ x ∈ (seedState kept).usedComps := by
  rw [seedCompList, firstOccurrences_mem, seedState]
  exact (List.mem_toFinset).symm

theorem reach_visited (comps : List FixComponent) (kept : List FixMessage) :
    ∀ c, ReachableComp comps (seedCompList kept) c →
      (lookupComp comps c).isSome →
      c ∈ (collectAll comps (seedCompList kept) (seedState kept)).visited := by
  intro c hc
  induction hc with
  | seed h =>
      intro hsome
      exact collectAll_names_visited _ _ _ _ h hsome
  | step hc hlk hd ih =>
      intro hsome
      have hpar := ih (by rw [hlk]; rfl)
      rcases collectAll_visited_closed _ _ _ _ hpar with h0 | ⟨k', hk', hcsub, hfsub, hvsub⟩
      · rw [seedState_visited] at h0
        exact absurd h0 (Finset.not_mem_empty _)
      · rename_i c' d k
        rw [hlk] at hk'
        have hkk : k = k' := Option.some.inj hk'
        subst hkk
        exact hvsub _ hd hsome

theorem usedComps_char (comps : List FixComponent) (kept : List FixMessage) :
    ∀ x, x ∈ (collectAll comps (seedCompList kept) (seedState kept)).usedComps ↔
      ReachableComp comps (seedCompList kept) x := by
  intro x
  constructor
  · intro hx
    exact collectAll_usedComps_sound comps (ReachableComp comps (seedCompList kept))
      (fun c k d hc hk hd => ReachableComp.step hc hk hd) _ _
      (fun n hn => ReachableComp.seed hn)
      (fun y hy => ReachableComp.seed ((mem_seedCompList_iff kept y).2 hy)) x hx
  · intro hx
    induction hx with
    | seed h =>
        rename_i c
        exact (collectAll_used_mono _ _ _).1 ((mem_seedCompList_iff kept c).1 h)
    | step hc hlk hd ih =>
        rename_i c d k
        have hvis := reach_visited comps kept c hc (by rw [hlk]; rfl)
        rcases collectAll_visited_closed _ _ _ _ hvis with h0 | ⟨k', hk', hcsub, hfsub, hvsub⟩
        · rw [seedState_visited] at h0
          exact absurd h0 (Finset.not_mem_empty _)
        · rw [hlk] at hk'
          have hkk : k = k' := Option.some.inj hk'
          subst hkk
          exact hcsub _ hd

theorem usedFields_char (comps : List FixComponent) (kept : List FixMessage) :
    ∀ x, x ∈ (collectAll comps (seedCompList kept) (seedState kept)).usedFields ↔
      x ∈ (seedState kept).usedFields ∨
        ∃ c k, ReachableComp comps (seedCompList kept) c ∧
          lookupComp comps c = some k ∧ x ∈ directFieldNames k.members := by
  intro x
  constructor
  · intro hx
    exact collectAll_usedFields_sound comps
      (ReachableComp comps (seedCompList kept))
      (fun y => y ∈ (seedState kept).usedFields ∨
        ∃ c k, ReachableComp comps (seedCompList kept) c ∧
          lookupComp comps c = some k ∧ y ∈ directFieldNames k.members)
      (fun c k d hc hk hd => ReachableComp.step hc hk hd)
      (fun c k y hc hk hy => Or.inr ⟨c, k, hc, hk, hy⟩) _ _
      (fun n hn => ReachableComp.seed hn)
      (fun y hy => Or.inl hy) x hx
  · rintro (hy | ⟨c, k, hc, hk, hy⟩)
    · exact (collectAll_used_mono _ _ _).2 hy
    · have hvis := reach_visited comps kept c hc (by rw [hk]; rfl)
      rcases collectAll_visited_closed _ _ _ _ hvis with h0 | ⟨k', hk', hcsub, hfsub, hvsub⟩
      · rw [seedState_visited] at h0
        exact absurd h0 (Finset.not_mem_empty _)
      · rw [hk] at hk'
        have hkk : k = k' := Option.some.inj hk'
        subst hkk
        exact hfsub _ hy

/-! ## Claim C2 -/

theorem seedState_usedFields_mem (kept : List FixMessage) (x : String) :
    x ∈ (seedState kept).usedFields ↔
      ∃ m ∈ kept, x ∈ directFieldNames m.members := by
  rw [seedState]
  simp [List.mem_flatten]

theorem keptMessages_nil (doc : FixDocument) : keptMessages doc [] = [] := by
  rw [keptMessages, List.filter_eq_nil_iff]
  intro m _
  simp

theorem seedState_nil : seedState [] = ⟨∅, ∅, ∅⟩ := by
  rw [seedState]
  simp

theorem seedCompList_nil : seedCompList [] = [] := rfl

/-- The document of the C2 counterexample: its header references field
BeginString, its fields section defines it, there are no messages. -/
def exC2doc : FixDocument :=
  ⟨[], [.field ⟨"8", "BeginString", "STRING", []⟩], some [],
   some [MemberE.mk "field" "BeginString" "Y" []], some []⟩

theorem stripUsed_exC2doc : stripUsed exC2doc [] = ⟨∅, ∅, ∅⟩ := by
  show (match exC2doc.components with
    | none => seedState (keptMessages exC2doc [])
    | some comps => collectAll comps (seedCompList (keptMessages exC2doc []))
        (seedState (keptMessages exC2doc []))) = ⟨∅, ∅, ∅⟩
  rw [show exC2doc.components = some [] from rfl, keptMessages_nil,
    seedCompList_nil]
  show collectAll [] [] (seedState []) = ⟨∅, ∅, ∅⟩
  rw [collectAll_nil, seedState_nil]

/-- C2 (counterexample): the pruner does NOT traverse header or trailer.
In a document whose header references the field BeginString, pruning with
an empty whitelist removes every field -- including BeginString, which is
reachable from the header -- and both used-sets end up empty instead of
equal to the header+trailer closure. -/
theorem C2_counterexample :
    exC2doc.header = some [MemberE.mk "field" "BeginString" "Y" []] ∧
    (∃ f, FieldsEntry.field f ∈ exC2doc.fields ∧ f.name = "BeginString") ∧
    (strip_fix_xml exC2doc []).messages = [] ∧
    (stripUsed exC2doc []).usedFields = ∅ ∧
    (stripUsed exC2doc []).usedComps = ∅ ∧
    (strip_fix_xml exC2doc []).fields = [] := by
  refine ⟨rfl, ⟨⟨"8", "BeginString", "STRING", []⟩, by simp [exC2doc], rfl⟩,
    rfl, ?_, ?_, ?_⟩
  · rw [stripUsed_exC2doc]
  · rw [stripUsed_exC2doc]
  · show exC2doc.fields.filter
      (fun e => entryName e ∈ (stripUsed exC2doc []).usedFields) = []
    rw [stripUsed_exC2doc]
    rfl

/-- C2 (amended): for a document with a components section, the pruned
result contains exactly what is reachable from the retained messages:
the kept messages are those whose msgtype is whitelisted; the
used-components set is exactly the set of component names transitively
reachable from the kept messages' direct component members through the
component map; the used-fields set is exactly the direct field members of
kept messages plus the direct field members of reachable, resolvable
components; the surviving fields/components are exactly the entries whose
name is in those sets.  Header and trailer are never traversed, and an
empty whitelist yields no messages and empty used-sets. -/
theorem C2_theorem (doc : FixDocument) (wl : List String)
    (comps : List FixComponent) (hcomps : doc.components = some comps) :
    (strip_fix_xml doc wl).messages = keptMessages doc wl ∧
    (∀ x, x ∈ (stripUsed doc wl).usedComps ↔
      ReachableComp comps (seedCompList (keptMessages doc wl)) x) ∧
    (∀ x, x ∈ (stripUsed doc wl).usedFields ↔
      (∃ m ∈ keptMessages doc wl, x ∈ directFieldNames m.members) ∨
      ∃ c k, ReachableComp comps (seedCompList (keptMessages doc wl)) c ∧
        lookupComp comps c = some k ∧ x ∈ directFieldNames k.members) ∧
    (strip_fix_xml doc wl).fields =
      doc.fields.filter (fun e => entryName e ∈ (stripUsed doc wl).usedFields) ∧
    (strip_fix_xml doc wl).components =
      some (comps.filter (fun c => c.name ∈ (stripUsed doc wl).usedComps)) ∧
    (wl = [] → (strip_fix_xml doc wl).messages = [] ∧
      (stripUsed doc wl).usedFields = ∅ ∧ (stripUsed doc wl).usedComps = ∅) := by
  have hsu : stripUsed doc wl = collectAll comps
      (seedCompList (keptMessages doc wl)) (seedState (keptMessages doc wl)) := by
    show (match doc.components with
      | none => seedState (keptMessages doc wl)
      | some comps => collectAll comps (seedCompList (keptMessages doc wl))
          (seedState (keptMessages doc wl))) = _
    rw [hcomps]
  refine ⟨rfl, ?_, ?_, rfl, ?_, ?_⟩
  · intro x
    rw [hsu]
    exact usedComps_char comps (keptMessages doc wl) x
  · intro x
    rw [hsu, usedFields_char]
    exact or_congr (seedState_usedFields_mem _ x) Iff.rfl
  · show doc.components.map _ = _
    rw [hcomps]
    rfl
  · intro hwl
    subst hwl
    have hk := keptMessages_nil doc
    refine ⟨by show keptMessages doc [] = []; exact hk, ?_, ?_⟩
    · rw [hsu, hk, seedCompList_nil, collectAll_nil, seedState_nil]
    · rw [hsu, hk, seedCompList_nil, collectAll_nil, seedState_nil]

/-- The document of the C2 witness: one kept message referencing a
component chain with a cycle, one dropped message, groups and a header
that must contribute nothing. -/
def exC2wdoc : FixDocument :=
  ⟨[⟨"M", "D", "app", [MemberE.mk "component" "A" "Y" [],
      MemberE.mk "group" "G" "N" [MemberE.mk "field" "GF" "Y" []],
      MemberE.mk "field" "F1" "Y" []]⟩,
    ⟨"Other", "8", "app", [MemberE.mk "field" "F2" "Y" []]⟩],
   [.field ⟨"1", "F1", "STRING", []⟩, .field ⟨"2", "GF", "STRING", []⟩,
    .field ⟨"3", "PF", "STRING", []⟩, .field ⟨"4", "F2", "STRING", []⟩],
   some [⟨"A", [MemberE.mk "component" "B" "N" []]⟩,
         ⟨"B", [MemberE.mk "field" "PF" "N" [], MemberE.mk "component" "A" "N" []]⟩],
   some [MemberE.mk "field" "HF" "Y" []], none⟩

/-- C2 witness: the amended theorem applied to the concrete document. -/
theorem C2_witness :
    exC2wdoc.components = some
      [⟨"A", [MemberE.mk "component" "B" "N" []]⟩,
       ⟨"B", [MemberE.mk "field" "PF" "N" [], MemberE.mk "component" "A" "N" []]⟩] ∧
    (∀ x, x ∈ (stripUsed exC2wdoc ["D"]).usedComps ↔
      ReachableComp
        [⟨"A", [MemberE.mk "component" "B" "N" []]⟩,
         ⟨"B", [MemberE.mk "field" "PF" "N" [], MemberE.mk "component" "A" "N" []]⟩]
        (seedCompList (keptMessages exC2wdoc ["D"])) x) :=
  ⟨rfl, (C2_theorem exC2wdoc ["D"] _ rfl).2.1⟩

/-! ## Claim C3 -/

theorem directFieldNames_dropGroups (ms : List MemberE) :
    directFieldNames (dropGroupMembers ms) = directFieldNames ms := by
  induction ms with
  | nil => rfl
  | cons m rest ih =>
      unfold dropGroupMembers at *
      rw [List.filter_cons]
      by_cases hg : m.tag = "group"
      · have hf : ¬ m.tag = "field" := by simp [hg]
        rw [if_neg (by simpa using hg)]
        unfold directFieldNames at *
        rw [List.filter_cons, if_neg (by simpa using hf), ih]
      · rw [if_pos (by simpa using hg)]
        unfold directFieldNames at *
        rw [List.filter_cons, List.filter_cons]
        by_cases hf : m.tag = "field"
        · rw [if_pos (by simpa using hf), if_pos (by simpa using hf)]
          simp only [List.map_cons]
          rw [ih]
        · rw [if_neg (by simpa using hf), if_neg (by simpa using hf), ih]

theorem directCompNames_dropGroups (ms : List MemberE) :
    directCompNames (dropGroupMembers ms) = directCompNames ms := by
  induction ms with
  | nil => rfl
  | cons m rest ih =>
      unfold dropGroupMembers at *
      rw [List.filter_cons]
      by_cases hg : m.tag = "group"
      · have hf : ¬ m.tag = "component" := by simp [hg]
        rw [if_neg (by simpa using hg)]
        unfold directCompNames at *
        rw [List.filter_cons, if_neg (by simpa using hf), ih]
      · rw [if_pos (by simpa using hg)]
        unfold directCompNames at *
        rw [List.filter_cons, List.filter_cons]
        by_cases hf : m.tag = "component"
        · rw [if_pos (by simpa using hf), if_pos (by simpa using hf)]
          simp only [List.map_cons]
          rw [ih]
        · rw [if_neg (by simpa using hf), if_neg (by simpa using hf), ih]

theorem keptMessages_dropGroups (doc : FixDocument) (wl : List String) :
    keptMessages (docDropGroups doc) wl = (keptMessages doc wl).map dropGroupsMsg := by
  show (doc.messages.map dropGroupsMsg).filter (fun m => m.msgtype ∈ wl) = _
  rw [List.filter_map]
  rfl

theorem map_members_dropGroups_fields (kept : List FixMessage) :
    List.map ((fun m => directFieldNames m.members) ∘ dropGroupsMsg) kept =
      List.map (fun m => directFieldNames m.members) kept := by
  apply List.map_congr_left
  intro m _
  show directFieldNames (dropGroupMembers m.members) = directFieldNames m.members
  exact directFieldNames_dropGroups m.members

theorem map_members_dropGroups_comps (kept : List FixMessage) :
    List.map ((fun m => directCompNames m.members) ∘ dropGroupsMsg) kept =
      List.map (fun m => directCompNames m.members) kept := by
  apply List.map_congr_left
  intro m _
  show directCompNames (dropGroupMembers m.members) = directCompNames m.members
  exact directCompNames_dropGroups m.members

theorem seedState_map_dropGroups (kept : List FixMessage) :
    seedState (kept.map dropGroupsMsg) = seedState kept := by
  unfold seedState
  rw [CState.mk.injEq]
  refine ⟨rfl, ?_, ?_⟩
  · rw [List.map_map, map_members_dropGroups_fields]
  · rw [List.map_map, map_members_dropGroups_comps]

theorem seedCompList_map_dropGroups (kept : List FixMessage) :
    seedCompList (kept.map dropGroupsMsg) = seedCompList kept := by
  unfold seedCompList
  rw [List.map_map, map_members_dropGroups_comps]

theorem lookupComp_map_dropGroups (comps : List FixComponent) (n : String) :
    lookupComp (comps.map dropGroupsComp) n =
      (lookupComp comps n).map dropGroupsComp := by
  unfold lookupComp
  rw [List.filter_map, List.getLast?_map]
  rfl

theorem isSome_map_dropGroupsComp (o : Option FixComponent) :
    (o.map dropGroupsComp).isSome = o.isSome := by cases o <;> rfl

theorem collectAll_map_dropGroups (comps : List FixComponent) :
    ∀ (names : List String) (st : CState),
      collectAll (comps.map dropGroupsComp) names st = collectAll comps names st := by
  intro names st
  induction names, st using collect_nested_components.induct comps with
  | case1 st => rw [collectAll_nil, collectAll_nil]
  | case2 n rest st hg k0 st1 r1 ih1 ih2 ih3 ih4 ih5 =>
      have hg' : (lookupComp (comps.map dropGroupsComp) n).isSome ∧ n ∉ st.visited := by
        rw [lookupComp_map_dropGroups]
        exact ⟨by rw [isSome_map_dropGroupsComp]; exact hg.1, hg.2⟩
      have hsome : lookupComp (comps.map dropGroupsComp) n =
          some (dropGroupsComp ((lookupComp comps n).get hg.1)) := by
        rw [lookupComp_map_dropGroups]
        exact congrArg (Option.map dropGroupsComp) (Option.some_get hg.1).symm
      have hget : (lookupComp (comps.map dropGroupsComp) n).get hg'.1 =
          dropGroupsComp ((lookupComp comps n).get hg.1) := by
        simp only [hsome, Option.get_some]
      have hmembers : (dropGroupsComp ((lookupComp comps n).get hg.1)).members =
          dropGroupMembers ((lookupComp comps n).get hg.1).members := rfl
      have hexp : expandState st n (dropGroupsComp ((lookupComp comps n).get hg.1)) =
          expandState st n ((lookupComp comps n).get hg.1) := by
        unfold expandState
        rw [CState.mk.injEq]
        refine ⟨rfl, ?_, ?_⟩
        · rw [hmembers, directFieldNames_dropGroups]
        · rw [hmembers, directCompNames_dropGroups]
      rw [collectAll_cons_pos rest hg, collectAll_cons_pos rest hg', hget, hexp,
        hmembers, directCompNames_dropGroups]
      simp only [expandState]
      rw [ih2]
      exact ih5
  | case3 n rest st hg ih =>
      have hg' : ¬ ((lookupComp (comps.map dropGroupsComp) n).isSome ∧ n ∉ st.visited) := by
        rw [lookupComp_map_dropGroups, isSome_map_dropGroupsComp]
        exact hg
      rw [collectAll_cons_neg rest hg, collectAll_cons_neg rest hg']
      exact ih

/-- Deleting group members of a document changes neither the used/visited
sets of the pruner: groups are never consulted at any stage. -/
theorem stripUsed_dropGroups (doc : FixDocument) (wl : List String) :
    stripUsed (docDropGroups doc) wl = stripUsed doc wl := by
  have hmsg := keptMessages_dropGroups doc wl
  cases hc : doc.components with
  | none =>
      have h2 : (docDropGroups doc).components = none := by
        show doc.components.map _ = none
        rw [hc]
        rfl
      have hL : stripUsed (docDropGroups doc) wl =
          seedState (keptMessages (docDropGroups doc) wl) := by
        show (match (docDropGroups doc).components with
          | none => seedState (keptMessages (docDropGroups doc) wl)
          | some comps => collectAll comps
              (seedCompList (keptMessages (docDropGroups doc) wl))
              (seedState (keptMessages (docDropGroups doc) wl))) = _
        rw [h2]
      have hR : stripUsed doc wl = seedState (keptMessages doc wl) := by
        show (match doc.components with
          | none => seedState (keptMessages doc wl)
          | some comps => collectAll comps (seedCompList (keptMessages doc wl))
              (seedState (keptMessages doc wl))) = _
        rw [hc]
      rw [hL, hR, hmsg, seedState_map_dropGroups]
  | some comps =>
      have h2 : (docDropGroups doc).components = some (comps.map dropGroupsComp) := by
        show doc.components.map _ = _
        rw [hc]
        rfl
      have hL : stripUsed (docDropGroups doc) wl =
          collectAll (comps.map dropGroupsComp)
            (seedCompList (keptMessages (docDropGroups doc) wl))
            (seedState (keptMessages (docDropGroups doc) wl)) := by
        show (match (docDropGroups doc).components with
          | none => seedState (keptMessages (docDropGroups doc) wl)
          | some comps => collectAll comps
              (seedCompList (keptMessages (docDropGroups doc) wl))
              (seedState (keptMessages (docDropGroups doc) wl))) = _
        rw [h2]
      have hR : stripUsed doc wl =
          collectAll comps (seedCompList (keptMessages doc wl))
            (seedState (keptMessages doc wl)) := by
        show (match doc.components with
          | none => seedState (keptMessages doc wl)
          | some comps => collectAll comps (seedCompList (keptMessages doc wl))
              (seedState (keptMessages doc wl))) = _
        rw [hc]
      rw [hL, hR, hmsg, seedCompList_map_dropGroups, seedState_map_dropGroups,
        collectAll_map_dropGroups]

/-- The document of the C3 counterexample: one message, kept by the
whitelist, whose only member is a group wrapping a field and a component;
the fields section defines the group name and the wrapped field, and the
components section defines the wrapped component. -/
def exC3doc : FixDocument :=
  ⟨[⟨"NewOrder", "D", "app",
      [MemberE.mk "group" "NoSides" "Y"
        [MemberE.mk "field" "Side" "Y" [],
         MemberE.mk "component" "CompX" "N" []]]⟩],
   [.field ⟨"552", "NoSides", "NUMINGROUP", []⟩,
    .field ⟨"54", "Side", "CHAR", []⟩],
   some [⟨"CompX", [MemberE.mk "field" "PX" "N" []]⟩],
   none, none⟩

theorem stripUsed_exC3doc : stripUsed exC3doc ["D"] = ⟨∅, ∅, ∅⟩ := by
  show (match exC3doc.components with
    | none => seedState (keptMessages exC3doc ["D"])
    | some comps => collectAll comps (seedCompList (keptMessages exC3doc ["D"]))
        (seedState (keptMessages exC3doc ["D"]))) = ⟨∅, ∅, ∅⟩
  rw [show exC3doc.components =
    some [⟨"CompX", [MemberE.mk "field" "PX" "N" []]⟩] from rfl]
  show collectAll [⟨"CompX", [MemberE.mk "field" "PX" "N" []]⟩]
      (seedCompList (keptMessages exC3doc ["D"]))
      (seedState (keptMessages exC3doc ["D"])) = ⟨∅, ∅, ∅⟩
  rw [show seedCompList (keptMessages exC3doc ["D"]) = [] from by decide,
    collectAll_nil,
    show seedState (keptMessages exC3doc ["D"]) = ⟨∅, ∅, ∅⟩ from by decide]

/-- C3 (counterexample): the pruner does NOT track group names as used
fields and does NOT traverse a group's nested members.  The whitelisted
message of `exC3doc` consists of a single group "NoSides" wrapping field
"Side" and component "CompX"; after pruning, the used-field and
used-component sets are empty -- "NoSides", "Side" and "CompX" are all
absent -- and every fields-section entry and every component is deleted,
contradicting the claim that group names are added to the used-field set
and group members are traversed. -/
theorem C3_counterexample :
    keptMessages exC3doc ["D"] =
      [⟨"NewOrder", "D", "app",
        [MemberE.mk "group" "NoSides" "Y"
          [MemberE.mk "field" "Side" "Y" [],
           MemberE.mk "component" "CompX" "N" []]]⟩] ∧
    (stripUsed exC3doc ["D"]).usedFields = ∅ ∧
    (stripUsed exC3doc ["D"]).usedComps = ∅ ∧
    ("NoSides" ∉ (stripUsed exC3doc ["D"]).usedFields ∧
     "Side" ∉ (stripUsed exC3doc ["D"]).usedFields ∧
     "CompX" ∉ (stripUsed exC3doc ["D"]).usedComps) ∧
    (strip_fix_xml exC3doc ["D"]).fields = [] ∧
    (strip_fix_xml exC3doc ["D"]).components = some [] := by
  refine ⟨rfl, ?_, ?_, ?_, ?_, ?_⟩
  · rw [stripUsed_exC3doc]
  · rw [stripUsed_exC3doc]
  · rw [stripUsed_exC3doc]
    exact ⟨by decide, by decide, by decide⟩
  · show exC3doc.fields.filter
      (fun e => entryName e ∈ (stripUsed exC3doc ["D"]).usedFields) = []
    rw [stripUsed_exC3doc]
    rfl
  · show exC3doc.components.map
      (fun comps => comps.filter
        (fun c => c.name ∈ (stripUsed exC3doc ["D"]).usedComps)) = some []
    rw [stripUsed_exC3doc]
    rfl

/-- C3 (amended): the pruner never examines group members at all.  Group
children of messages and components contribute nothing to the used-field
or used-component sets and nothing nested inside a group is traversed:
deleting every group member from every message and every component
definition leaves the computed used/visited sets, the surviving
fields-section entries, and the surviving component set unchanged (the
retained messages themselves merely lose their group children, and group
names never enter the used-field set, so a field entry named after a
group survives only if that name also occurs as a direct field). -/
theorem C3_theorem (doc : FixDocument) (wl : List String) :
    stripUsed (docDropGroups doc) wl = stripUsed doc wl ∧
    (strip_fix_xml (docDropGroups doc) wl).fields =
      (strip_fix_xml doc wl).fields ∧
    (strip_fix_xml (docDropGroups doc) wl).messages =
      (strip_fix_xml doc wl).messages.map dropGroupsMsg ∧
    (strip_fix_xml (docDropGroups doc) wl).components =
      (strip_fix_xml doc wl).components.map (fun cs => cs.map dropGroupsComp) := by
  have key : ∀ (cs : List FixComponent) (S : Finset String),
      (cs.map dropGroupsComp).filter (fun c => c.name ∈ S) =
        (cs.filter (fun c => c.name ∈ S)).map dropGroupsComp := by
    intro cs S
    rw [List.filter_map]
    rfl
  refine ⟨stripUsed_dropGroups doc wl, ?_, ?_, ?_⟩
  · show (docDropGroups doc).fields.filter
        (fun e => entryName e ∈ (stripUsed (docDropGroups doc) wl).usedFields) =
      doc.fields.filter (fun e => entryName e ∈ (stripUsed doc wl).usedFields)
    rw [stripUsed_dropGroups]
    rfl
  · show keptMessages (docDropGroups doc) wl =
      (keptMessages doc wl).map dropGroupsMsg
    exact keptMessages_dropGroups doc wl
  · show (doc.components.map (fun cs => cs.map dropGroupsComp)).map
        (fun comps => comps.filter
          (fun c => c.name ∈ (stripUsed (docDropGroups doc) wl).usedComps)) =
      (doc.components.map (fun comps => comps.filter
          (fun c => c.name ∈ (stripUsed doc wl).usedComps))).map
        (fun cs => cs.map dropGroupsComp)
    rw [stripUsed_dropGroups]
    cases doc.components with
    | none => rfl
    | some cs => exact congrArg some (key cs _)

/-! ## Claim C9 -/

/-- C9: cycle safety of the pruner's closure.  Termination is established
once and for all by the definition of `collect_nested_components` itself:
it is a total well-founded recursion whose measure is the number of
not-yet-visited component names (the visited-set guard makes the set of
unvisited names strictly shrink on every expansion, so each component is
expanded at most once).  This theorem states the inclusion half of the
claim for an arbitrary two-cycle: if components `a` and `b` reference
each other and either of them ends up in the pruner's used-component set,
then both do. -/
theorem C9_theorem (doc : FixDocument) (wl : List String)
    (comps : List FixComponent) (a b : String) (ka kb : FixComponent)
    (hcomps : doc.components = some comps)
    (ha : lookupComp comps a = some ka) (hb : lookupComp comps b = some kb)
    (hab : b ∈ directCompNames ka.members)
    (hba : a ∈ directCompNames kb.members)
    (hreach : a ∈ (stripUsed doc wl).usedComps ∨
      b ∈ (stripUsed doc wl).usedComps) :
    a ∈ (stripUsed doc wl).usedComps ∧ b ∈ (stripUsed doc wl).usedComps := by
  have hsu : stripUsed doc wl = collectAll comps
      (seedCompList (keptMessages doc wl)) (seedState (keptMessages doc wl)) := by
    show (match doc.components with
      | none => seedState (keptMessages doc wl)
      | some comps => collectAll comps (seedCompList (keptMessages doc wl))
          (seedState (keptMessages doc wl))) = _
    rw [hcomps]
  rw [hsu] at hreach ⊢
  rw [usedComps_char, usedComps_char]
  rw [usedComps_char, usedComps_char] at hreach
  rcases hreach with hra | hrb
  · exact ⟨hra, ReachableComp.step hra ha hab⟩
  · exact ⟨ReachableComp.step hrb hb hba, hrb⟩

/-- C9 witness: the cycle-safety theorem applied to the concrete document
`exC2wdoc`, whose components A and B reference each other and whose kept
message references A: both end up in the used-component set. -/
theorem C9_witness :
    "A" ∈ (stripUsed exC2wdoc ["D"]).usedComps ∧
    "B" ∈ (stripUsed exC2wdoc ["D"]).usedComps :=
  C9_theorem exC2wdoc ["D"]
    [⟨"A", [MemberE.mk "component" "B" "N" []]⟩,
     ⟨"B", [MemberE.mk "field" "PF" "N" [], MemberE.mk "component" "A" "N" []]⟩]
    "A" "B"
    ⟨"A", [MemberE.mk "component" "B" "N" []]⟩
    ⟨"B", [MemberE.mk "field" "PF" "N" [], MemberE.mk "component" "A" "N" []]⟩
    rfl rfl rfl (by decide) (by decide)
    (Or.inl (by
      show "A" ∈ (stripUsed exC2wdoc ["D"]).usedComps
      simp [exC2wdoc, stripUsed, keptMessages, seedState, seedCompList,
        firstOccurrences, firstOccurrencesAux, collectAll,
        collect_nested_components, lookupComp, directFieldNames,
        directCompNames, MemberE.tag, MemberE.name]))
